import Mathlib

/-!
Verification of the todo-app repository core: task operations
(`internal/todo/manager.go`), the JSON/CSV codecs and the durable store
(`internal/storage/json_storage.go`, `pkg/logging/logger.go` lock helpers).

Go strings are modelled as `List Char` (valid-UTF-8 byte strings); Go `int`
is modelled as `Int` (id arithmetic in this program stays far from the
64-bit range, so overflow is not modelled).
-/

abbrev Chars := List Char

/-- The whitespace predicate of Go's `unicode.IsSpace` (the `White_Space`
property), used by `strings.TrimSpace` and `csv` writer quoting. -/
def isSpaceGo (c : Char) : Bool :=
  c = ' ' || c = '\t' || c = '\n' || c.toNat = 0x0B || c.toNat = 0x0C ||
  c = '\r' || c.toNat = 0x85 || c.toNat = 0xA0 || c.toNat = 0x1680 ||
  (0x2000 ≤ c.toNat && c.toNat ≤ 0x200A) || c.toNat = 0x2028 ||
  c.toNat = 0x2029 || c.toNat = 0x202F || c.toNat = 0x205F || c.toNat = 0x3000

/-- Go `strings.TrimSpace`: drop leading and trailing Unicode whitespace. -/
def trimSpace (s : Chars) : Chars :=
  ((s.dropWhile isSpaceGo).reverse.dropWhile isSpaceGo).reverse

def isDigitChar (c : Char) : Bool := '0' ≤ c && c ≤ '9'

def digitChar (d : Nat) : Char := Char.ofNat (48 + d)

/-- Decimal digits of a natural number, accumulator style
(mirrors `strconv.AppendInt`'s digit loop). -/
def natToCharsAux : Nat → Chars → Chars
  | n, acc =>
    if h : n < 10 then digitChar n :: acc
    else natToCharsAux (n / 10) (digitChar (n % 10) :: acc)
  termination_by n => n
  decreasing_by
    exact Nat.div_lt_self (by omega) (by omega)

def natToChars (n : Nat) : Chars := natToCharsAux n []

/-- Go `strconv.Itoa` / `fmt` `%d` on an `int`. -/
def intToChars (i : Int) : Chars :=
  if i < 0 then '-' :: natToChars i.natAbs else natToChars i.natAbs

/-- Numeric value of a string of decimal digits. -/
def digitsVal (s : Chars) : Nat :=
  s.foldl (fun a c => a * 10 + (c.toNat - 48)) 0

/-- Go `strconv.Atoi` (= `ParseInt(s, 10, 0)` without the range check):
an optional sign followed by at least one ASCII decimal digit. -/
def atoi (s : Chars) : Option Int :=
  match s with
  | [] => none
  | c :: rest =>
    if c = '+' then
      if rest ≠ [] ∧ rest.all isDigitChar then some (digitsVal rest) else none
    else if c = '-' then
      if rest ≠ [] ∧ rest.all isDigitChar then some (-(digitsVal rest : Int)) else none
    else if (c :: rest).all isDigitChar then some (digitsVal (c :: rest)) else none

/-- Go `strconv.ParseBool`: accepts exactly
`1 t T TRUE true True` and `0 f F FALSE false False`. -/
def parseBoolGo (s : Chars) : Option Bool :=
  if s = ['1'] || s = ['t'] || s = ['T'] || s = "TRUE".data || s = "true".data
     || s = "True".data then some true
  else if s = ['0'] || s = ['f'] || s = ['F'] || s = "FALSE".data
     || s = "false".data || s = "False".data then some false
  else none

/-- Go `strconv.FormatBool`. -/
def formatBool (b : Bool) : Chars := if b then "true".data else "false".data

/-- UTF-8 byte width of one scalar value (Go `len` counts bytes). -/
def charUtf8Size (c : Char) : Nat :=
  if c.toNat < 0x80 then 1
  else if c.toNat < 0x800 then 2
  else if c.toNat < 0x10000 then 3
  else 4

/-- Go `len` of a string: its UTF-8 byte length. -/
def utf8Len (s : Chars) : Nat := (s.map charUtf8Size).sum

namespace todo

/-- The `Task` struct of `internal/todo/task.go`. -/
structure Task where
  id : Int
  description : Chars
  done : Bool
deriving DecidableEq

end todo

abbrev Tasks := List todo.Task

/-- The error kinds of the spec's error taxonomy; the message is the
`fmt.Errorf` string produced by the source. -/
inductive TodoError where
  | validationError (msg : Chars)
  | notFoundError (msg : Chars)
deriving DecidableEq

def TodoError.isValidation : TodoError → Bool
  | .validationError _ => true
  | .notFoundError _ => false

def TodoError.isNotFound : TodoError → Bool
  | .validationError _ => false
  | .notFoundError _ => true

namespace todo

def MinID : Int := 1

def MaxDescriptionLength : Nat := 1000

/-- `ValidateID` of `manager.go`: ids below `MinID` are rejected. -/
def ValidateID (id : Int) : Option TodoError :=
  if id < MinID then
    some (TodoError.validationError
      ("task ID must be at least ".data ++ intToChars MinID ++
       ", got ".data ++ intToChars id))
  else none

/-- `ValidateDescription` of `manager.go`: empty or over-long (in bytes)
descriptions are rejected. -/
def ValidateDescription (desc : Chars) : Option TodoError :=
  if desc = [] then
    some (TodoError.validationError "task description cannot be empty".data)
  else if MaxDescriptionLength < utf8Len desc then
    some (TodoError.validationError
      ("task description cannot exceed ".data ++ natToChars MaxDescriptionLength ++
       " characters, got ".data ++ natToChars (utf8Len desc)))
  else none

/-- `generateID` of `manager.go`: 1 on an empty list, otherwise one plus the
running maximum started at `MinID - 1 = 0`. -/
def generateID (tasks : Tasks) : Int :=
  match tasks with
  | [] => MinID
  | _ =>
    (tasks.foldl (fun maxID t => if maxID < t.id then t.id else maxID) (MinID - 1)) + 1

def findTaskByIDAux : Tasks → Int → Nat → Option Nat
  | [], _, _ => none
  | t :: rest, id, i =>
    if t.id = id then some i else findTaskByIDAux rest id (i + 1)

/-- `findTaskByID` of `manager.go`: index of the first task with the given
id (`none` models Go's `-1`). -/
def findTaskByID (tasks : Tasks) (id : Int) : Option Nat :=
  findTaskByIDAux tasks id 0

/-- `tasks[index].Done = true` of `Complete`. -/
def markDone : Tasks → Nat → Tasks
  | [], _ => []
  | t :: rest, 0 => { t with done := true } :: rest
  | t :: rest, i + 1 => t :: markDone rest i

/-- `append(tasks[:index], tasks[index+1:]...)` of `Delete`. -/
def removeAt : Tasks → Nat → Tasks
  | [], _ => []
  | _ :: rest, 0 => rest
  | t :: rest, i + 1 => t :: removeAt rest i

/-- `Add` of `manager.go`. -/
def Add (tasks : Tasks) (desc : Chars) : Tasks × Option TodoError :=
  match ValidateDescription desc with
  | some e => (tasks, some e)
  | none => (tasks ++ [{ id := generateID tasks, description := desc, done := false }], none)

/-- `List` of `manager.go`: filter by `done` / `pending`, anything else
returns the collection unchanged. -/
def List (tasks : Tasks) (filter : Chars) : Tasks :=
  if filter = "done".data then tasks.filter (fun t => t.done)
  else if filter = "pending".data then tasks.filter (fun t => !t.done)
  else tasks

/-- `Complete` of `manager.go`. -/
def Complete (tasks : Tasks) (id : Int) : Tasks × Option TodoError :=
  match ValidateID id with
  | some e => (tasks, some e)
  | none =>
    match findTaskByID tasks id with
    | none =>
      (tasks, some (TodoError.notFoundError
        ("task with ID ".data ++ intToChars id ++ " not found".data)))
    | some index => (markDone tasks index, none)

/-- `Delete` of `manager.go`. -/
def Delete (tasks : Tasks) (id : Int) : Tasks × Option TodoError :=
  match ValidateID id with
  | some e => (tasks, some e)
  | none =>
    match findTaskByID tasks id with
    | none =>
      (tasks, some (TodoError.notFoundError
        ("task with ID ".data ++ intToChars id ++ " not found".data)))
    | some index => (removeAt tasks index, none)

/-- Modelled from the spec: `next id = 1 + max(ids ∪ 0)`, the corrected
form of the spec's ID-generation formula (the spec writes
`1 + max(ids, default=0)`). -/
def maxIdOrZero (tasks : Tasks) : Int :=
  tasks.foldl (fun m t => max m t.id) 0

end todo

/-- One caller-visible mutating operation of the task layer. -/
inductive Op where
  | add (desc : Chars)
  | complete (id : Int)
  | delete (id : Int)

/-- Apply one operation, keeping the collection an operation returns
(on error the operations return the input collection). -/
def applyOp (tasks : Tasks) : Op → Tasks
  | Op.add desc => (todo.Add tasks desc).1
  | Op.complete id => (todo.Complete tasks id).1
  | Op.delete id => (todo.Delete tasks id).1

/-- Run a sequence of operations from the empty collection. -/
def runOps (ops : List Op) : Tasks := ops.foldl applyOp []

/-! ### CSV codec

`SaveCSV` / `LoadCSV` of `internal/storage/json_storage.go` delegate the
line format to Go's `encoding/csv`; the writer and reader semantics of that
package (comma separator, RFC-4180 quoting, `\r\n` normalisation, blank-line
skipping, `FieldsPerRecord` checking, line-oriented error recovery) are
modelled here explicitly. -/

namespace storage

/-- `csv.Writer` quoting test (`fieldNeedsQuotes`): empty fields are bare;
the literal `\.`, separators, quotes, CR/LF, or a leading white-space rune
force quotes. -/
def fieldNeedsQuotes (f : Chars) : Bool :=
  match f with
  | [] => false
  | c :: _ =>
    f == ['\\', '.'] ||
    f.any (fun d => d == ',' || d == '"' || d == '\r' || d == '\n') ||
    isSpaceGo c

/-- Double every quote, as the `csv.Writer` does inside a quoted field. -/
def escQuote : Chars → Chars
  | [] => []
  | c :: rest => if c = '"' then '"' :: '"' :: escQuote rest else c :: escQuote rest

/-- One CSV field as written by `csv.Writer` (UseCRLF = false). -/
def writeField (f : Chars) : Chars :=
  if fieldNeedsQuotes f then '"' :: escQuote f ++ ['"'] else f

/-- Comma-joined encoded fields of one record. -/
def writeFieldsSep : List Chars → Chars
  | [] => []
  | [f] => writeField f
  | f :: rest => writeField f ++ ',' :: writeFieldsSep rest

/-- One CSV record line, `\n`-terminated. -/
def writeRecord (r : List Chars) : Chars :=
  writeFieldsSep r ++ ['\n']

/-- The field rendering of a task used by `SaveCSV`. -/
def taskRecord (t : todo.Task) : List Chars :=
  [intToChars t.id, t.description, formatBool t.done]

/-- `SaveCSV` of `json_storage.go`: header row then one record per task
(modelled as the content written; I/O failure paths are not modelled). -/
def SaveCSV (tasks : Tasks) : Chars :=
  writeRecord ["ID".data, "Description".data, "Done".data] ++
    (tasks.map (fun t => writeRecord (taskRecord t))).flatten

/-- `csv.Reader.readLine` folds every `\r\n` in the stream into `\n`;
since `\n` delimits lines, this is a global rewrite of the input. -/
def normalizeCRLF : Chars → Chars
  | [] => []
  | [c] => [c]
  | c1 :: c2 :: rest =>
    if c1 = '\r' ∧ c2 = '\n' then '\n' :: normalizeCRLF rest
    else c1 :: normalizeCRLF (c2 :: rest)

/-- Skip the remainder of the current line, including its `\n`
(the reader's position after a per-record parse error). -/
def dropLine : Chars → Chars
  | [] => []
  | c :: rest => if c = '\n' then rest else dropLine rest

/-- Result of parsing one CSV field: the field with a flag telling whether
it ended the record, or a parse error with the recovered position. -/
inductive FieldOut where
  | ok (f : Chars) (atEol : Bool) (rest : Chars)
  | bad (rest : Chars)

/-- Quoted-field scan of `csv.Reader`: text runs to the closing quote,
`""` is a literal quote, and a closing quote must be followed by the
separator, end of line, or end of input (`ErrQuote` otherwise; an
unterminated quote at end of input is also `ErrQuote`). -/
def parseQuoted : Chars → FieldOut
  | [] => FieldOut.bad []
  | c :: rest =>
    if c = '"' then
      match rest with
      | [] => FieldOut.ok [] true []
      | d :: rest2 =>
        if d = '"' then
          match parseQuoted rest2 with
          | FieldOut.ok f e r => FieldOut.ok ('"' :: f) e r
          | FieldOut.bad r => FieldOut.bad r
        else if d = ',' then FieldOut.ok [] false rest2
        else if d = '\n' then FieldOut.ok [] true rest2
        else FieldOut.bad (dropLine rest2)
    else
      match parseQuoted rest with
      | FieldOut.ok f e r => FieldOut.ok (c :: f) e r
      | FieldOut.bad r => FieldOut.bad r

/-- Bare-field scan of `csv.Reader`: text runs to the separator or end of
line, and must not contain a quote (`ErrBareQuote`). -/
def parseUnquoted (s : Chars) : FieldOut :=
  let f := s.takeWhile (fun c => !(c == ',' || c == '\n'))
  let r := s.dropWhile (fun c => !(c == ',' || c == '\n'))
  if f.any (fun c => c == '"') then FieldOut.bad (dropLine s)
  else
    match r with
    | [] => FieldOut.ok f true []
    | c :: rest => if c = ',' then FieldOut.ok f false rest else FieldOut.ok f true rest

/-- One CSV field (`TrimLeadingSpace` is false, so only a leading `"`
selects the quoted form). -/
def parseField (s : Chars) : FieldOut :=
  match s with
  | c :: rest => if c = '"' then parseQuoted rest else parseUnquoted s
  | [] => parseUnquoted s

/-- Result of parsing one CSV record. -/
inductive FieldsOut where
  | ok (fields : List Chars) (rest : Chars)
  | bad (rest : Chars)

/-- Fields of one record; the fuel bounds the field count (every recursive
step consumes the separator, so `input length + 1` always suffices). -/
def parseFieldsAux : Nat → Chars → FieldsOut
  | 0, s => FieldsOut.bad s
  | fuel + 1, s =>
    match parseField s with
    | FieldOut.bad rest => FieldsOut.bad rest
    | FieldOut.ok f true rest => FieldsOut.ok [f] rest
    | FieldOut.ok f false rest =>
      match parseFieldsAux fuel rest with
      | FieldsOut.ok fs rest2 => FieldsOut.ok (f :: fs) rest2
      | FieldsOut.bad rest2 => FieldsOut.bad rest2

def parseFields (s : Chars) : FieldsOut := parseFieldsAux (s.length + 1) s

/-- One `csv.Reader.Read` outcome as `LoadCSV` observes it: a record, or
any read error (`ErrBareQuote`, `ErrQuote`, `ErrFieldCount`). -/
inductive CsvItem where
  | record (r : List Chars)
  | readError

/-- The stream of `Read` outcomes: blank lines are skipped, the first
successfully parsed record fixes `FieldsPerRecord`, and later records of a
different width come back as `ErrFieldCount` errors. -/
def parseRecordsAux : Nat → Option Nat → Chars → List CsvItem
  | 0, _, _ => []
  | fuel + 1, fpr, s =>
    match s with
    | [] => []
    | c :: rest =>
      if c = '\n' then parseRecordsAux fuel fpr rest
      else
        match parseFields (c :: rest) with
        | FieldsOut.bad rest2 => CsvItem.readError :: parseRecordsAux fuel fpr rest2
        | FieldsOut.ok r rest2 =>
          match fpr with
          | none => CsvItem.record r :: parseRecordsAux fuel (some r.length) rest2
          | some n =>
            (if r.length = n then CsvItem.record r else CsvItem.readError) ::
              parseRecordsAux fuel (some n) rest2

/-- All `Read` outcomes for a whole input. -/
def csvRead (s : Chars) : List CsvItem :=
  parseRecordsAux (s.length + 1) none (normalizeCRLF s)

/-- The per-record validation of `LoadCSV`: at least three fields, the
trimmed id parses as an integer, the trimmed done parses as a boolean;
the description is the trimmed second field. -/
def parseRow (r : List Chars) : Option todo.Task :=
  match r with
  | f0 :: f1 :: f2 :: _ =>
    match atoi (trimSpace f0) with
    | none => none
    | some id =>
      match parseBoolGo (trimSpace f2) with
      | none => none
      | some done => some { id := id, description := trimSpace f1, done := done }
  | _ => none

/-- The read loop of `LoadCSV`: errors are skipped without advancing
`lineNum`; the first counted record is the header; invalid rows are
skipped; valid rows are appended in file order. -/
def loadLoop : List CsvItem → Nat → Tasks → Tasks
  | [], _, acc => acc
  | CsvItem.readError :: rest, lineNum, acc => loadLoop rest lineNum acc
  | CsvItem.record r :: rest, lineNum, acc =>
    if lineNum + 1 = 1 then loadLoop rest (lineNum + 1) acc
    else
      match parseRow r with
      | some t => loadLoop rest (lineNum + 1) (acc ++ [t])
      | none => loadLoop rest (lineNum + 1) acc

/-- `LoadCSV` of `json_storage.go` on a file's content (the open-failure
path is not modelled; row-level defects never produce an error). -/
def LoadCSV (content : Chars) : Tasks :=
  loadLoop (csvRead content) 0 []

/-- The task a post-header `Read` outcome contributes to the result. -/
def itemRow : CsvItem → Option todo.Task
  | CsvItem.record r => parseRow r
  | CsvItem.readError => none

/-- Whether a `\r\n` pair occurs in the string. -/
def hasCRLF : Chars → Bool
  | [] => false
  | [_] => false
  | c1 :: c2 :: rest => (c1 == '\r' && c2 == '\n') || hasCRLF (c2 :: rest)

end storage

/-! ### JSON codec

`SaveJSON` / `LoadJSON` delegate to `encoding/json`'s
`MarshalIndent(tasks, "", "  ")` and `Unmarshal`; both are modelled here
for the value shape `[]Task`. -/

namespace storage

def lbrace : Char := Char.ofNat 123

def rbrace : Char := Char.ofNat 125

def hexDigitChar (n : Nat) : Char :=
  if n < 10 then Char.ofNat (48 + n) else Char.ofNat (87 + n)

/-- `encoding/json` string-element encoding with the default HTML escaping:
quote, backslash, newline/CR/tab get two-character escapes; other control
characters and the HTML-sensitive ASCII characters get `\u00xx`; the line
separators U+2028/U+2029 get `\u202x`; everything else is verbatim. -/
def encodeJSONChar (c : Char) : Chars :=
  if c = '"' then ['\\', '"']
  else if c = '\\' then ['\\', '\\']
  else if c = '\n' then ['\\', 'n']
  else if c = '\r' then ['\\', 'r']
  else if c = '\t' then ['\\', 't']
  else if c.toNat < 0x20 || c = '<' || c = '>' || c = '&' then
    ['\\', 'u', '0', '0', hexDigitChar (c.toNat / 16), hexDigitChar (c.toNat % 16)]
  else if c.toNat = 0x2028 then "\\u2028".data
  else if c.toNat = 0x2029 then "\\u2029".data
  else [c]

def encodeJSONString (s : Chars) : Chars :=
  '"' :: (s.map encodeJSONChar).flatten ++ ['"']

/-- Newline plus `n` spaces of indentation, as `json.Indent` emits. -/
def nlIndent (n : Nat) : Chars := '\n' :: List.replicate n ' '

/-- One task object as `MarshalIndent(tasks, "", "  ")` renders it at array
depth: fixed field order `id`, `description`, `done`. -/
def encodeJSONTask (t : todo.Task) : Chars :=
  lbrace :: (nlIndent 4 ++ "\"id\": ".data ++ intToChars t.id ++ [','] ++
    nlIndent 4 ++ "\"description\": ".data ++ encodeJSONString t.description ++ [','] ++
    nlIndent 4 ++ "\"done\": ".data ++ formatBool t.done ++
    nlIndent 2 ++ [rbrace])

/-- `MarshalIndent(tasks, "", "  ")` for the whole collection; an empty
collection renders as a flat empty array. -/
def encodeJSONTasks (tasks : Tasks) : Chars :=
  match tasks with
  | [] => ['[', ']']
  | t :: ts =>
    '[' :: nlIndent 2 ++ encodeJSONTask t ++
      (ts.map (fun u => ',' :: nlIndent 2 ++ encodeJSONTask u)).flatten ++
      '\n' :: [']']

/-- Parsed JSON values; number literals are kept textually, as
`encoding/json` does before converting to the target field type. -/
inductive JVal where
  | jnull
  | jbool (b : Bool)
  | jnum (lit : Chars)
  | jstr (s : Chars)
  | jarr (elems : List JVal)
  | jobj (members : List (Chars × JVal))

def jsonWS (c : Char) : Bool := c = ' ' || c = '\t' || c = '\n' || c = '\r'

def skipWS (s : Chars) : Chars := s.dropWhile jsonWS

def hexVal (c : Char) : Option Nat :=
  if '0' ≤ c ∧ c ≤ '9' then some (c.toNat - 48)
  else if 'a' ≤ c ∧ c ≤ 'f' then some (c.toNat - 87)
  else if 'A' ≤ c ∧ c ≤ 'F' then some (c.toNat - 55)
  else none

def consChar (c : Char) : Option (Chars × Chars) → Option (Chars × Chars) :=
  Option.map (fun p => (c :: p.1, p.2))

/-- Four hex digits (`getu4` of `encoding/json`). -/
def parseU4 : Chars → Option (Nat × Chars)
  | h1 :: h2 :: h3 :: h4 :: rest =>
    match hexVal h1, hexVal h2, hexVal h3, hexVal h4 with
    | some a, some b, some c, some d => some (((a * 16 + b) * 16 + c) * 16 + d, rest)
    | _, _, _, _ => none
  | _ => none

/-- Continuation of a `\u` escape once its value is read: a UTF-16 high
surrogate combines with an immediately following `\u` low surrogate; a
lone surrogate becomes U+FFFD consuming only its own escape, as
`encoding/json`'s unquoting does. -/
def parseUEscapeCont (v : Nat) (rest : Chars) : Option (Char × Chars) :=
  if 0xD800 ≤ v ∧ v ≤ 0xDBFF then
    match rest with
    | '\\' :: 'u' :: rest2 =>
      match parseU4 rest2 with
      | some (w, rest3) =>
        if 0xDC00 ≤ w ∧ w ≤ 0xDFFF then
          some (Char.ofNat (0x10000 + (v - 0xD800) * 0x400 + (w - 0xDC00)), rest3)
        else some (Char.ofNat 0xFFFD, rest)
      | none => some (Char.ofNat 0xFFFD, rest)
    | _ => some (Char.ofNat 0xFFFD, rest)
  else if 0xDC00 ≤ v ∧ v ≤ 0xDFFF then some (Char.ofNat 0xFFFD, rest)
  else some (Char.ofNat v, rest)

/-- One `\u` escape, after the `u` (`getu4` plus surrogate handling). -/
def parseUEscape (s : Chars) : Option (Char × Chars) :=
  match parseU4 s with
  | none => none
  | some (v, rest) => parseUEscapeCont v rest

/-- JSON string body up to the closing quote, with `encoding/json`'s
unquoting: the standard escapes, `\uXXXX` escapes, and raw control
characters rejected. The fuel bounds the number of characters produced,
so `input length + 1` always suffices. -/
def parseStringBodyF : Nat → Chars → Option (Chars × Chars)
  | 0, _ => none
  | fuel + 1, s =>
    match s with
    | [] => none
    | c :: rest =>
      if c = '"' then some ([], rest)
      else if c = '\\' then
        match rest with
        | [] => none
        | e :: rest2 =>
          if e = '"' then consChar '"' (parseStringBodyF fuel rest2)
          else if e = '\\' then consChar '\\' (parseStringBodyF fuel rest2)
          else if e = '/' then consChar '/' (parseStringBodyF fuel rest2)
          else if e = 'b' then consChar (Char.ofNat 8) (parseStringBodyF fuel rest2)
          else if e = 'f' then consChar (Char.ofNat 12) (parseStringBodyF fuel rest2)
          else if e = 'n' then consChar '\n' (parseStringBodyF fuel rest2)
          else if e = 'r' then consChar '\r' (parseStringBodyF fuel rest2)
          else if e = 't' then consChar '\t' (parseStringBodyF fuel rest2)
          else if e = 'u' then
            match parseUEscape rest2 with
            | some (ch, rest3) => consChar ch (parseStringBodyF fuel rest3)
            | none => none
          else none
      else if c.toNat < 0x20 then none
      else consChar c (parseStringBodyF fuel rest)

def parseStringBody (s : Chars) : Option (Chars × Chars) :=
  parseStringBodyF (s.length + 1) s

/-- Exponent digits of a JSON number literal. -/
def parseExpDigits (acc : Chars) (s : Chars) : Option (Chars × Chars) :=
  let p : Chars × Chars :=
    match s with
    | c :: r => if c = '+' ∨ c = '-' then ([c], r) else ([], s)
    | [] => ([], s)
  let ds := p.2.takeWhile isDigitChar
  if ds = [] then none else some (acc ++ p.1 ++ ds, p.2.dropWhile isDigitChar)

/-- Optional exponent part of a JSON number literal. -/
def parseExpPart (acc : Chars) (s : Chars) : Option (Chars × Chars) :=
  match s with
  | c :: r => if c = 'e' ∨ c = 'E' then parseExpDigits (acc ++ [c]) r else some (acc, s)
  | [] => some (acc, s)

/-- A JSON number literal (optional minus, no leading zeros, optional
fraction and exponent), returned textually. -/
def parseNumberLit (s : Chars) : Option (Chars × Chars) :=
  let p : Chars × Chars :=
    match s with
    | c :: r => if c = '-' then (['-'], r) else ([], s)
    | [] => ([], s)
  let ip := p.2.takeWhile isDigitChar
  let r1 := p.2.dropWhile isDigitChar
  if ip = [] then none
  else if 1 < ip.length ∧ ip.head? = some '0' then none
  else
    match r1 with
    | c :: r =>
      if c = '.' then
        let fd := r.takeWhile isDigitChar
        if fd = [] then none
        else parseExpPart (p.1 ++ ip ++ '.' :: fd) (r.dropWhile isDigitChar)
      else parseExpPart (p.1 ++ ip) r1
    | [] => parseExpPart (p.1 ++ ip) r1

mutual

/-- Recursive-descent JSON value parser; the fuel bounds the nesting
depth (every nesting level consumes at least one character, so
`input length + 1` always suffices; `encoding/json` likewise enforces a
depth limit). -/
def parseJValue : Nat → Chars → Option (JVal × Chars)
  | 0, _ => none
  | fuel + 1, s =>
    match skipWS s with
    | [] => none
    | c :: rest =>
      if c = 'n' then
        match rest with
        | 'u' :: 'l' :: 'l' :: r => some (JVal.jnull, r)
        | _ => none
      else if c = 't' then
        match rest with
        | 'r' :: 'u' :: 'e' :: r => some (JVal.jbool true, r)
        | _ => none
      else if c = 'f' then
        match rest with
        | 'a' :: 'l' :: 's' :: 'e' :: r => some (JVal.jbool false, r)
        | _ => none
      else if c = '"' then
        match parseStringBody rest with
        | some (str, r) => some (JVal.jstr str, r)
        | none => none
      else if c = '[' then
        match skipWS rest with
        | ']' :: r => some (JVal.jarr [], r)
        | s2 =>
          match parseElems fuel s2 with
          | some (vs, r) => some (JVal.jarr vs, r)
          | none => none
      else if c = lbrace then
        match skipWS rest with
        | [] => none
        | d :: r =>
          if d = rbrace then some (JVal.jobj [], r)
          else
            match parseMembers fuel (d :: r) with
            | some (ms, r2) => some (JVal.jobj ms, r2)
            | none => none
      else if c = '-' ∨ isDigitChar c then
        match parseNumberLit (c :: rest) with
        | some (lit, r) => some (JVal.jnum lit, r)
        | none => none
      else none

/-- Array elements after `[`, at least one. -/
def parseElems : Nat → Chars → Option (List JVal × Chars)
  | 0, _ => none
  | fuel + 1, s =>
    match parseJValue fuel s with
    | none => none
    | some (v, r) =>
      match skipWS r with
      | ',' :: r2 =>
        match parseElems fuel r2 with
        | some (vs, r3) => some (v :: vs, r3)
        | none => none
      | ']' :: r2 => some ([v], r2)
      | _ => none

/-- Object members after the opening brace, at least one. -/
def parseMembers : Nat → Chars → Option (List (Chars × JVal) × Chars)
  | 0, _ => none
  | fuel + 1, s =>
    match skipWS s with
    | [] => none
    | c :: rest =>
      if c = '"' then
        match parseStringBody rest with
        | none => none
        | some (key, r) =>
          match skipWS r with
          | ':' :: r2 =>
            match parseJValue fuel r2 with
            | none => none
            | some (v, r3) =>
              match skipWS r3 with
              | ',' :: r5 =>
                match parseMembers fuel r5 with
                | some (ms, r6) => some ((key, v) :: ms, r6)
                | none => none
              | d :: r5 => if d = rbrace then some ([(key, v)], r5) else none
              | [] => none
          | _ => none
      else none

end

/-- ASCII lower-casing for `encoding/json`'s case-insensitive field-name
match. -/
def jsonLower (c : Char) : Char :=
  if 'A' ≤ c ∧ c ≤ 'Z' then Char.ofNat (c.toNat + 32) else c

def keyMatches (k : Chars) (name : Chars) : Bool :=
  k.map jsonLower == name

/-- Assign one object member to a `Task` under `Unmarshal`'s rules: the
three known fields require a matching value type (an integer literal for
`id`), unknown keys are ignored, later duplicates win. -/
def setTaskField (acc : Option todo.Task) (k : Chars) (v : JVal) : Option todo.Task :=
  match acc with
  | none => none
  | some t =>
    if keyMatches k "id".data then
      match v with
      | JVal.jnum lit =>
        match atoi lit with
        | some n => some { t with id := n }
        | none => none
      | _ => none
    else if keyMatches k "description".data then
      match v with
      | JVal.jstr str => some { t with description := str }
      | _ => none
    else if keyMatches k "done".data then
      match v with
      | JVal.jbool b => some { t with done := b }
      | _ => none
    else some t

/-- A task from a parsed JSON value: it must be an object; absent fields
keep Go's zero values. -/
def taskOfJVal : JVal → Option todo.Task
  | JVal.jobj ms =>
    ms.foldl (fun acc kv => setTaskField acc kv.1 kv.2)
      (some { id := 0, description := [], done := false })
  | _ => none

/-- A `[]Task` from a parsed JSON value: `null` unmarshals to the nil
slice, otherwise the value must be an array of objects. -/
def tasksOfJVal : JVal → Option Tasks
  | JVal.jnull => some []
  | JVal.jarr vs => vs.mapM taskOfJVal
  | _ => none

/-- The parsed JSON value of one encoded task object. -/
def taskJVal (t : todo.Task) : JVal :=
  JVal.jobj
    [("id".data, JVal.jnum (intToChars t.id)),
     ("description".data, JVal.jstr t.description),
     ("done".data, JVal.jbool t.done)]

/-- `json.Unmarshal(data, &tasks)`: one JSON value, nothing but
whitespace after it, converted to a task list (`none` is any error). -/
def decodeJSONTasks (s : Chars) : Option Tasks :=
  match parseJValue (s.length + 1) s with
  | some (v, rest) => if skipWS rest = [] then tasksOfJVal v else none
  | none => none

/-! ### Durable store -/

/-- The UTF-8 byte-order mark (bytes `EF BB BF`, scalar U+FEFF). -/
def bomChar : Char := Char.ofNat 0xFEFF

/-- The BOM strip of `LoadJSON` (`data = data[3:]` after the byte test). -/
def stripBOM (s : Chars) : Chars :=
  match s with
  | c :: rest => if c = bomChar then rest else s
  | [] => s

/-- `LoadJSON` of `json_storage.go` over an abstract file state: `none`
models a missing file (`os.IsNotExist`). Non-content I/O failures
(stat or read errors) are not modelled. -/
def LoadJSON (path : Chars) (file : Option Chars) : Except Chars Tasks :=
  match file with
  | none => Except.ok []
  | some data =>
    if data = [] then Except.ok []
    else
      match decodeJSONTasks (stripBOM data) with
      | some tasks => Except.ok tasks
      | none => Except.error ("cannot parse JSON from ".data ++ path ++ ": unmarshal error".data)

/-- The needle occurs contiguously inside the haystack. -/
def containsSeg (needle haystack : Chars) : Prop :=
  ∃ a b, haystack = a ++ needle ++ b

/-- The file-system state `SaveJSON` manipulates: the target file's
content, our temporary file's content, and the presence of the
`path + ".lock"` marker file. -/
structure FS where
  file : Option Chars
  tmp : Option Chars
  lock : Bool
deriving DecidableEq

/-- The failure points of `SaveJSON`'s protocol, in program order. -/
inductive SaveStep where
  | acquireLock
  | marshal
  | createTemp
  | writeTemp
  | syncTemp
  | closeTemp
  | rename
deriving DecidableEq

/-- The `defer`red cleanups of `SaveJSON`: `lock.Release()` removes the
lock marker; the temp cleanup closes the handle and removes the temp file
if it still exists. -/
inductive Deferred where
  | releaseLock
  | cleanupTemp

/-- Run deferred cleanups; the list is kept most-recently-registered
first, matching Go's LIFO `defer` order. -/
def runDeferred : List Deferred → FS → FS
  | [], fs => fs
  | Deferred.releaseLock :: ds, fs => runDeferred ds { fs with lock := false }
  | Deferred.cleanupTemp :: ds, fs =>
    runDeferred ds
      (match fs.tmp with
       | some _ => { fs with tmp := none }
       | none => fs)

/-- `SaveJSON` of `json_storage.go` (atomic variant): acquire the lock
(which fails if the marker is already present, or by injected failure),
marshal, create a sibling temp file, write, sync, close, rename onto the
target, running the registered defers on every exit. `fails` injects a
failure at each step. -/
def SaveJSON (fails : SaveStep → Bool) (tasks : Tasks) (fs : FS) : FS × Option SaveStep :=
  if fs.lock || fails SaveStep.acquireLock then (fs, some SaveStep.acquireLock)
  else
    let fs1 : FS := { fs with lock := true }
    let defs1 : List Deferred := [Deferred.releaseLock]
    if fails SaveStep.marshal then (runDeferred defs1 fs1, some SaveStep.marshal)
    else if fails SaveStep.createTemp then (runDeferred defs1 fs1, some SaveStep.createTemp)
    else
      let fs2 : FS := { fs1 with tmp := some [] }
      let defs2 : List Deferred := Deferred.cleanupTemp :: defs1
      if fails SaveStep.writeTemp then (runDeferred defs2 fs2, some SaveStep.writeTemp)
      else
        let fs3 : FS := { fs2 with tmp := some (encodeJSONTasks tasks) }
        if fails SaveStep.syncTemp then (runDeferred defs2 fs3, some SaveStep.syncTemp)
        else if fails SaveStep.closeTemp then (runDeferred defs2 fs3, some SaveStep.closeTemp)
        else if fails SaveStep.rename then (runDeferred defs2 fs3, some SaveStep.rename)
        else (runDeferred defs2 { fs3 with file := fs3.tmp, tmp := none }, none)

end storage

/-! ## Helper lemmas: task-operation layer -/

theorem findTaskByIDAux_eq_none (tasks : Tasks) (id : Int) (k : Nat) :
    todo.findTaskByIDAux tasks id k = none ↔ ∀ t ∈ tasks, t.id ≠ id := by
  induction tasks generalizing k with
  | nil => simp [todo.findTaskByIDAux]
  | cons t rest ih =>
    by_cases h : t.id = id
    · simp [todo.findTaskByIDAux, h]
    · simp [todo.findTaskByIDAux, h, ih]

theorem findTaskByID_eq_none (tasks : Tasks) (id : Int) :
    todo.findTaskByID tasks id = none ↔ ∀ t ∈ tasks, t.id ≠ id :=
  findTaskByIDAux_eq_none tasks id 0

theorem findTaskByIDAux_first (A B : Tasks) (t : todo.Task) (id : Int)
    (ht : t.id = id) :
    ∀ k : Nat, (∀ u ∈ A, u.id ≠ id) →
      todo.findTaskByIDAux (A ++ t :: B) id k = some (k + A.length) := by
  induction A with
  | nil => intro k _; simp [todo.findTaskByIDAux, ht]
  | cons a rest ih =>
    intro k hA
    have ha : ¬a.id = id := hA a (by simp)
    have hrest : ∀ u ∈ rest, u.id ≠ id := fun u hu => hA u (by simp [hu])
    rw [List.cons_append]
    simp only [todo.findTaskByIDAux]
    rw [if_neg ha, ih (k + 1) hrest]
    simp only [List.length_cons]
    congr 1
    omega

theorem findTaskByID_first (A B : Tasks) (t : todo.Task) (id : Int)
    (hA : ∀ u ∈ A, u.id ≠ id) (ht : t.id = id) :
    todo.findTaskByID (A ++ t :: B) id = some A.length := by
  simpa using findTaskByIDAux_first A B t id ht 0 hA

theorem removeAt_append (A B : Tasks) (t : todo.Task) :
    todo.removeAt (A ++ t :: B) A.length = A ++ B := by
  induction A with
  | nil => simp [todo.removeAt]
  | cons a rest ih => simpa [todo.removeAt] using ih

theorem markDone_append (A B : Tasks) (t : todo.Task) :
    todo.markDone (A ++ t :: B) A.length = A ++ { t with done := true } :: B := by
  induction A with
  | nil => simp [todo.markDone]
  | cons a rest ih => simpa [todo.markDone] using ih

theorem validateID_ok (id : Int) (h : 1 ≤ id) : todo.ValidateID id = none := by
  have : ¬id < todo.MinID := by simp only [todo.MinID]; omega
  simp [todo.ValidateID, this]

theorem validateID_fail (id : Int) (h : id < 1) :
    ∃ m, todo.ValidateID id = some (TodoError.validationError m) := by
  have hlt : id < todo.MinID := by simp only [todo.MinID]; omega
  exact ⟨"task ID must be at least ".data ++ intToChars todo.MinID ++
    ", got ".data ++ intToChars id, by unfold todo.ValidateID; rw [if_pos hlt]⟩

/-! ## Claims about the task-operation layer -/

/-- C8: for every collection and id ≥ 1 present in it, `Delete` removes
exactly the first task in sequence order whose id matches (even under
injected duplicate ids), returning the remaining tasks in order with
their fields unchanged and no error. -/
theorem c8_delete_first_match (A B : Tasks) (t : todo.Task) (id : Int)
    (hid : 1 ≤ id) (ht : t.id = id) (hA : ∀ u ∈ A, u.id ≠ id) :
    todo.Delete (A ++ t :: B) id = (A ++ B, none) := by
  unfold todo.Delete
  rw [validateID_ok id hid, findTaskByID_first A B t id hA ht]
  show (todo.removeAt (A ++ t :: B) A.length, (none : Option TodoError)) = (A ++ B, none)
  rw [removeAt_append]

/-- C8 witness: deleting id 1 from a two-element collection whose first
task has id 2 removes the second task only. -/
theorem c8_delete_first_match_witness :
    todo.Delete [⟨2, ['a'], false⟩, ⟨1, ['b'], false⟩] 1 = ([⟨2, ['a'], false⟩], none) :=
  c8_delete_first_match [⟨2, ['a'], false⟩] [] ⟨1, ['b'], false⟩ 1
    (by decide) (by decide) (by decide)

/-- C10: for every collection and id ≥ 1 present in it, `Complete` sets
only the first matching task's `done` to true, leaving its id and
description, every other task and the order unchanged; repeating the call
yields the same collection (idempotence). -/
theorem c10_complete_frame_idempotent (A B : Tasks) (t : todo.Task) (id : Int)
    (hid : 1 ≤ id) (ht : t.id = id) (hA : ∀ u ∈ A, u.id ≠ id) :
    todo.Complete (A ++ t :: B) id = (A ++ { t with done := true } :: B, none) ∧
    todo.Complete (A ++ { t with done := true } :: B) id =
      (A ++ { t with done := true } :: B, none) := by
  constructor
  · unfold todo.Complete
    rw [validateID_ok id hid, findTaskByID_first A B t id hA ht]
    show (todo.markDone (A ++ t :: B) A.length, (none : Option TodoError)) = _
    rw [markDone_append]
  · unfold todo.Complete
    rw [validateID_ok id hid,
      findTaskByID_first A B { t with done := true } id hA (by simpa using ht)]
    show (todo.markDone (A ++ { t with done := true } :: B) A.length,
      (none : Option TodoError)) = _
    rw [markDone_append]

/-- C10 witness: completing id 1 twice marks the second task done once. -/
theorem c10_complete_frame_idempotent_witness :
    todo.Complete [⟨2, ['a'], false⟩, ⟨1, ['b'], false⟩] 1 =
      ([⟨2, ['a'], false⟩, ⟨1, ['b'], true⟩], none) ∧
    todo.Complete [⟨2, ['a'], false⟩, ⟨1, ['b'], true⟩] 1 =
      ([⟨2, ['a'], false⟩, ⟨1, ['b'], true⟩], none) :=
  c10_complete_frame_idempotent [⟨2, ['a'], false⟩] [] ⟨1, ['b'], false⟩ 1
    (by decide) (by decide) (by decide)

/-- C6: `Complete` and `Delete` fail with a `ValidationError` when
`id < 1` and with a `NotFoundError` when `id ≥ 1` matches no task, in
both cases returning the collection unmodified. -/
theorem c6_missing_id_failure (C : Tasks) (id : Int) :
    (id < 1 →
      (∃ m, todo.Complete C id = (C, some (TodoError.validationError m))) ∧
      (∃ m, todo.Delete C id = (C, some (TodoError.validationError m)))) ∧
    (1 ≤ id → (∀ t ∈ C, t.id ≠ id) →
      (∃ m, todo.Complete C id = (C, some (TodoError.notFoundError m))) ∧
      (∃ m, todo.Delete C id = (C, some (TodoError.notFoundError m)))) := by
  constructor
  · intro h
    obtain ⟨m, hm⟩ := validateID_fail id h
    exact ⟨⟨m, by unfold todo.Complete; rw [hm]⟩, ⟨m, by unfold todo.Delete; rw [hm]⟩⟩
  · intro h habs
    have hfind : todo.findTaskByID C id = none := (findTaskByID_eq_none C id).2 habs
    refine ⟨⟨"task with ID ".data ++ intToChars id ++ " not found".data, ?_⟩,
      ⟨"task with ID ".data ++ intToChars id ++ " not found".data, ?_⟩⟩
    · unfold todo.Complete; rw [validateID_ok id h, hfind]
    · unfold todo.Delete; rw [validateID_ok id h, hfind]

/-- C6 witness: id 0 is a validation failure on the empty collection; a
missing id 1 is a not-found failure leaving the collection unchanged. -/
theorem c6_missing_id_failure_witness :
    ((∃ m, todo.Complete [] 0 = ([], some (TodoError.validationError m))) ∧
     (∃ m, todo.Delete [] 0 = ([], some (TodoError.validationError m)))) ∧
    ((∃ m, todo.Complete [⟨2, ['a'], false⟩] 1 =
        ([⟨2, ['a'], false⟩], some (TodoError.notFoundError m))) ∧
     (∃ m, todo.Delete [⟨2, ['a'], false⟩] 1 =
        ([⟨2, ['a'], false⟩], some (TodoError.notFoundError m)))) :=
  ⟨(c6_missing_id_failure [] 0).1 (by decide),
   (c6_missing_id_failure [⟨2, ['a'], false⟩] 1).2 (by decide) (by decide)⟩

/-- C7: `Add` fails (with a `ValidationError`) exactly when the
description is empty or longer than 1000 bytes, leaving the collection
unchanged on error; on success it appends exactly one new task carrying
the given description and `done = false`, preserving all existing
tasks. -/
theorem c7_add_validation (C : Tasks) (d : Chars) :
    ((∃ e, (todo.Add C d).2 = some e ∧ e.isValidation = true) ↔
      (d = [] ∨ 1000 < utf8Len d)) ∧
    ((todo.Add C d).2.isSome → (todo.Add C d).1 = C) ∧
    ((todo.Add C d).2 = none →
      (todo.Add C d).1 = C ++ [{ id := todo.generateID C, description := d, done := false }]) := by
  have hmax : todo.MaxDescriptionLength = 1000 := rfl
  by_cases hnil : d = []
  · refine ⟨⟨fun _ => Or.inl hnil, fun _ => ?_⟩, fun _ => ?_, fun hnone => ?_⟩
    · exact ⟨TodoError.validationError "task description cannot be empty".data,
        by simp [todo.Add, todo.ValidateDescription, hnil], rfl⟩
    · simp [todo.Add, todo.ValidateDescription, hnil]
    · simp [todo.Add, todo.ValidateDescription, hnil] at hnone
  · by_cases hlong : 1000 < utf8Len d
    · have hlong' : todo.MaxDescriptionLength < utf8Len d := by rw [hmax]; exact hlong
      refine ⟨⟨fun _ => Or.inr hlong, fun _ => ?_⟩, fun _ => ?_, fun hnone => ?_⟩
      · exact ⟨TodoError.validationError
          ("task description cannot exceed ".data ++ natToChars todo.MaxDescriptionLength ++
           " characters, got ".data ++ natToChars (utf8Len d)),
          by simp [todo.Add, todo.ValidateDescription, hnil, hlong'], rfl⟩
      · simp [todo.Add, todo.ValidateDescription, hnil, hlong']
      · simp [todo.Add, todo.ValidateDescription, hnil, hlong'] at hnone
    · have hok : todo.ValidateDescription d = none := by
        have : ¬todo.MaxDescriptionLength < utf8Len d := by rw [hmax]; exact hlong
        simp [todo.ValidateDescription, hnil, this]
      refine ⟨⟨fun ⟨e, he, _⟩ => ?_, fun h => ?_⟩, fun h => ?_, fun _ => ?_⟩
      · simp [todo.Add, hok] at he
      · rcases h with h | h
        · exact absurd h hnil
        · exact absurd h hlong
      · simp [todo.Add, hok] at h
      · simp [todo.Add, hok]

/-- C7 witness: adding to the empty collection with the empty description
fails leaving it empty; adding a one-character description appends one
fresh task. -/
theorem c7_add_validation_witness :
    (todo.Add [] ([] : Chars)).1 = [] ∧
    (todo.Add [] ['a']).1 = [] ++ [{ id := todo.generateID [], description := ['a'], done := false }] :=
  ⟨(c7_add_validation [] []).2.1 (by decide), (c7_add_validation [] ['a']).2.2 (by decide)⟩

/-- C4: `List` returns the whole collection unchanged for `all` and for
any unrecognized filter; `done` / `pending` return exactly the completed /
pending tasks, partitioning the collection with no overlap and no
omission; `List` is total and pure by construction. -/
theorem c4_filter_totality (C : Tasks) :
    todo.List C "all".data = C ∧
    (∀ f : Chars, f ≠ "done".data → f ≠ "pending".data → todo.List C f = C) ∧
    todo.List C "done".data = C.filter (fun t => t.done) ∧
    todo.List C "pending".data = C.filter (fun t => !t.done) ∧
    (∀ t ∈ C, t ∈ todo.List C "done".data ∨ t ∈ todo.List C "pending".data) ∧
    (∀ t, ¬(t ∈ todo.List C "done".data ∧ t ∈ todo.List C "pending".data)) ∧
    (todo.List C "done".data).length + (todo.List C "pending".data).length = C.length := by
  have hdone : todo.List C "done".data = C.filter (fun t => t.done) := by
    simp [todo.List]
  have hpend : todo.List C "pending".data = C.filter (fun t => !t.done) := by
    have h1 : "pending".data ≠ "done".data := by decide
    simp [todo.List, h1]
  refine ⟨?_, fun f h1 h2 => ?_, hdone, hpend, fun t ht => ?_, fun t ⟨h1, h2⟩ => ?_, ?_⟩
  · have h1 : "all".data ≠ "done".data := by decide
    have h2 : "all".data ≠ "pending".data := by decide
    simp [todo.List, h1, h2]
  · simp [todo.List, h1, h2]
  · rw [hdone, hpend]
    by_cases h : t.done
    · exact Or.inl (List.mem_filter.2 ⟨ht, by simp [h]⟩)
    · exact Or.inr (List.mem_filter.2 ⟨ht, by simp [h]⟩)
  · rw [hdone] at h1
    rw [hpend] at h2
    have := (List.mem_filter.1 h1).2
    have := (List.mem_filter.1 h2).2
    simp_all
  · rw [hdone, hpend]
    clear hdone hpend
    induction C with
    | nil => rfl
    | cons t rest ih =>
      by_cases h : t.done <;>
        simp [List.filter_cons, h, List.length_cons] <;> omega

/-- C4 witness: an unrecognized filter and `all` return a concrete
collection unchanged; `done` and `pending` split it. -/
theorem c4_filter_totality_witness :
    todo.List [⟨1, ['a'], true⟩, ⟨2, ['b'], false⟩] ['x'] =
      [⟨1, ['a'], true⟩, ⟨2, ['b'], false⟩] ∧
    todo.List [⟨1, ['a'], true⟩, ⟨2, ['b'], false⟩] "done".data =
      List.filter (fun t => t.done) [⟨1, ['a'], true⟩, ⟨2, ['b'], false⟩] :=
  ⟨(c4_filter_totality [⟨1, ['a'], true⟩, ⟨2, ['b'], false⟩]).2.1 ['x']
      (by decide) (by decide),
   (c4_filter_totality [⟨1, ['a'], true⟩, ⟨2, ['b'], false⟩]).2.2.1⟩

/-! ## Helper lemmas: ID generation and operation sequences -/

theorem foldl_step_eq_max (l : Tasks) (a : Int) :
    l.foldl (fun maxID t => if maxID < t.id then t.id else maxID) a =
      l.foldl (fun m t => max m t.id) a := by
  induction l generalizing a with
  | nil => rfl
  | cons t rest ih =>
    simp only [List.foldl_cons, ih]
    congr 1
    by_cases h : a < t.id
    · rw [if_pos h, max_eq_right (le_of_lt h)]
    · rw [if_neg h, max_eq_left (by omega)]

theorem generateID_eq (tasks : Tasks) :
    todo.generateID tasks = todo.maxIdOrZero tasks + 1 := by
  cases tasks with
  | nil => rfl
  | cons t rest =>
    show (List.foldl _ (todo.MinID - 1) (t :: rest)) + 1 = _
    rw [foldl_step_eq_max]
    have h0 : todo.MinID - 1 = 0 := rfl
    rw [h0]
    rfl

theorem le_foldl_max (l : Tasks) (a : Int) :
    a ≤ l.foldl (fun m t => max m t.id) a := by
  induction l generalizing a with
  | nil => simp
  | cons t rest ih =>
    simp only [List.foldl_cons]
    exact le_trans (le_max_left a t.id) (ih (max a t.id))

theorem mem_le_foldl_max (l : Tasks) (a : Int) (t : todo.Task) (ht : t ∈ l) :
    t.id ≤ l.foldl (fun m t => max m t.id) a := by
  induction l generalizing a with
  | nil => cases ht
  | cons u rest ih =>
    simp only [List.foldl_cons]
    rcases List.mem_cons.1 ht with h | h
    · subst h
      exact le_trans (le_max_right a t.id) (le_foldl_max rest _)
    · exact ih _ h

theorem mem_le_maxIdOrZero (tasks : Tasks) (t : todo.Task) (ht : t ∈ tasks) :
    t.id ≤ todo.maxIdOrZero tasks :=
  mem_le_foldl_max tasks 0 t ht

theorem maxIdOrZero_nonneg (tasks : Tasks) : 0 ≤ todo.maxIdOrZero tasks :=
  le_foldl_max tasks 0

theorem ids_markDone (ts : Tasks) :
    ∀ i, (todo.markDone ts i).map todo.Task.id = ts.map todo.Task.id := by
  induction ts with
  | nil => intro i; rfl
  | cons t rest ih =>
    intro i
    cases i with
    | zero => simp [todo.markDone]
    | succ j => simp [todo.markDone, ih j]

theorem removeAt_sublist (ts : Tasks) : ∀ i, (todo.removeAt ts i).Sublist ts := by
  induction ts with
  | nil => intro i; simp [todo.removeAt]
  | cons t rest ih =>
    intro i
    cases i with
    | zero => exact List.Sublist.cons t (List.Sublist.refl rest)
    | succ j => exact List.Sublist.cons₂ t (ih j)

theorem invariant_step (ts : Tasks) (op : Op)
    (h1 : (ts.map todo.Task.id).Nodup) (h2 : ∀ t ∈ ts, 1 ≤ t.id) :
    ((applyOp ts op).map todo.Task.id).Nodup ∧ ∀ t ∈ applyOp ts op, 1 ≤ t.id := by
  cases op with
  | add desc =>
    show ((todo.Add ts desc).1.map todo.Task.id).Nodup ∧ ∀ t ∈ (todo.Add ts desc).1, 1 ≤ t.id
    unfold todo.Add
    cases hv : todo.ValidateDescription desc with
    | some e => exact ⟨h1, h2⟩
    | none =>
      simp only
      constructor
      · rw [List.map_append, List.map_cons, List.map_nil]
        rw [List.nodup_append]
        refine ⟨h1, List.nodup_singleton _, ?_⟩
        intro x hx hmem
        simp only [List.mem_singleton] at hmem
        obtain ⟨u, hu, hux⟩ := List.mem_map.1 hx
        have hle : u.id ≤ todo.maxIdOrZero ts := mem_le_maxIdOrZero ts u hu
        rw [generateID_eq] at hmem
        subst hmem
        omega
      · intro t ht
        rcases List.mem_append.1 ht with h | h
        · exact h2 t h
        · simp only [List.mem_singleton] at h
          subst h
          simp only [generateID_eq]
          have := maxIdOrZero_nonneg ts
          omega
  | complete id =>
    show ((todo.Complete ts id).1.map todo.Task.id).Nodup ∧
      ∀ t ∈ (todo.Complete ts id).1, 1 ≤ t.id
    unfold todo.Complete
    cases hv : todo.ValidateID id with
    | some e => exact ⟨h1, h2⟩
    | none =>
      cases hf : todo.findTaskByID ts id with
      | none => exact ⟨h1, h2⟩
      | some i =>
        simp only
        constructor
        · rw [ids_markDone]
          exact h1
        · intro t ht
          have : t.id ∈ (todo.markDone ts i).map todo.Task.id := List.mem_map_of_mem _ ht
          rw [ids_markDone] at this
          obtain ⟨u, hu, hut⟩ := List.mem_map.1 this
          rw [← hut]
          exact h2 u hu
  | delete id =>
    show ((todo.Delete ts id).1.map todo.Task.id).Nodup ∧
      ∀ t ∈ (todo.Delete ts id).1, 1 ≤ t.id
    unfold todo.Delete
    cases hv : todo.ValidateID id with
    | some e => exact ⟨h1, h2⟩
    | none =>
      cases hf : todo.findTaskByID ts id with
      | none => exact ⟨h1, h2⟩
      | some i =>
        simp only
        constructor
        · exact h1.sublist (List.Sublist.map todo.Task.id (removeAt_sublist ts i))
        · intro t ht
          exact h2 t ((removeAt_sublist ts i).mem ht)

theorem runOps_invariant (ops : List Op) :
    ∀ ts : Tasks, (ts.map todo.Task.id).Nodup → (∀ t ∈ ts, 1 ≤ t.id) →
      ((ops.foldl applyOp ts).map todo.Task.id).Nodup ∧
      ∀ t ∈ ops.foldl applyOp ts, 1 ≤ t.id := by
  induction ops with
  | nil => intro ts h1 h2; exact ⟨h1, h2⟩
  | cons op rest ih =>
    intro ts h1 h2
    have step := invariant_step ts op h1 h2
    simpa [List.foldl_cons] using ih (applyOp ts op) step.1 step.2

/-- C1 (amended): the id `Add` assigns is `1 + max(ids ∪ 0)` — the max
runs over the ids together with 0, so a collection holding only negative
(import-injected) ids still yields id 1; for any sequence of Add calls
interleaved with Complete and Delete calls from the empty collection the
resulting ids are pairwise distinct and all at least 1, so each new id is
`max(previous ids) + 1` regardless of deletion gaps. -/
theorem c1_id_generation :
    (∀ C : Tasks, todo.generateID C = todo.maxIdOrZero C + 1) ∧
    (∀ (C : Tasks) (d : Chars), (todo.Add C d).2 = none →
      (todo.Add C d).1 =
        C ++ [{ id := todo.maxIdOrZero C + 1, description := d, done := false }]) ∧
    (∀ ops : List Op, ((runOps ops).map todo.Task.id).Nodup) ∧
    (∀ ops : List Op, ∀ t ∈ runOps ops, 1 ≤ t.id) := by
  refine ⟨generateID_eq, fun C d h => ?_,
    fun ops => (runOps_invariant ops [] (by simp) (by simp)).1,
    fun ops => (runOps_invariant ops [] (by simp) (by simp)).2⟩
  unfold todo.Add at h ⊢
  cases hv : todo.ValidateDescription d with
  | some e => rw [hv] at h; simp at h
  | none => simp [generateID_eq]

/-- C1 witness: a successful `Add` onto a collection with max id 3 assigns
id 4, and a concrete add/add/delete/add sequence yields distinct ids. -/
theorem c1_id_generation_witness :
    (todo.Add [⟨3, ['a'], false⟩] ['b']).1 =
      [⟨3, ['a'], false⟩] ++
        [{ id := todo.maxIdOrZero [⟨3, ['a'], false⟩] + 1, description := ['b'], done := false }] ∧
    ((runOps [Op.add ['a'], Op.add ['b'], Op.delete 1, Op.add ['c']]).map todo.Task.id).Nodup :=
  ⟨c1_id_generation.2.1 [⟨3, ['a'], false⟩] ['b'] (by decide),
   c1_id_generation.2.2.1 [Op.add ['a'], Op.add ['b'], Op.delete 1, Op.add ['c']]⟩

/-- C1 counterexample: on the collection holding one import-injected task
with id `-5`, `Add` assigns id 1, while the claim's formula
`1 + max(ids, default 0)` demands `1 + (-5) = -4`. -/
theorem c1_id_generation_counterexample :
    (todo.Add [⟨-5, ['x'], false⟩] ['y']).1 =
      [⟨-5, ['x'], false⟩, ⟨1, ['y'], false⟩] ∧ (1 : Int) ≠ 1 + (-5) := by
  decide

/-! ## Claim about the durable store's save protocol -/

/-- C2: whenever `SaveJSON` fails at a step before the final rename (lock
acquisition, marshalling, temp-file creation, write, sync or close), the
target file keeps its original content and no temp file remains; when the
failure comes after lock acquisition the deferred release has removed the
lock marker, and a lock-acquisition failure leaves the state untouched. -/
theorem c2_save_all_or_nothing (fails : storage.SaveStep → Bool) (tasks : Tasks)
    (fs : storage.FS) (s : storage.SaveStep)
    (htmp : fs.tmp = none)
    (herr : (storage.SaveJSON fails tasks fs).2 = some s)
    (hpre : s ≠ storage.SaveStep.rename) :
    (storage.SaveJSON fails tasks fs).1.file = fs.file ∧
    (storage.SaveJSON fails tasks fs).1.tmp = none ∧
    (s = storage.SaveStep.acquireLock → (storage.SaveJSON fails tasks fs).1 = fs) ∧
    (s ≠ storage.SaveStep.acquireLock → (storage.SaveJSON fails tasks fs).1.lock = false) := by
  unfold storage.SaveJSON at herr ⊢
  split_ifs at herr ⊢ with h1 h2 h3 h4 h5 h6 h7
  · simp only [Option.some.injEq] at herr
    subst herr
    exact ⟨rfl, htmp, fun _ => rfl, fun hc => absurd rfl hc⟩
  · simp only [Option.some.injEq] at herr
    subst herr
    exact ⟨rfl, htmp, fun hc => absurd hc (by decide), fun _ => rfl⟩
  · simp only [Option.some.injEq] at herr
    subst herr
    exact ⟨rfl, htmp, fun hc => absurd hc (by decide), fun _ => rfl⟩
  · simp only [Option.some.injEq] at herr
    subst herr
    exact ⟨rfl, rfl, fun hc => absurd hc (by decide), fun _ => rfl⟩
  · simp only [Option.some.injEq] at herr
    subst herr
    exact ⟨rfl, rfl, fun hc => absurd hc (by decide), fun _ => rfl⟩
  · simp only [Option.some.injEq] at herr
    subst herr
    exact ⟨rfl, rfl, fun hc => absurd hc (by decide), fun _ => rfl⟩
  · simp only [Option.some.injEq] at herr
    subst herr
    exact absurd rfl hpre

/-- C2 witness: with a failure injected at the write step, a concrete
state keeps its file content, has no leftover temp file, and the lock is
released. -/
theorem c2_save_all_or_nothing_witness :
    (storage.SaveJSON (fun st => st == storage.SaveStep.writeTemp) []
        ⟨some ['x'], none, false⟩).1.file = some ['x'] ∧
    (storage.SaveJSON (fun st => st == storage.SaveStep.writeTemp) []
        ⟨some ['x'], none, false⟩).1.tmp = none ∧
    (storage.SaveJSON (fun st => st == storage.SaveStep.writeTemp) []
        ⟨some ['x'], none, false⟩).1.lock = false := by
  have h := c2_save_all_or_nothing (fun st => st == storage.SaveStep.writeTemp) []
    ⟨some ['x'], none, false⟩ storage.SaveStep.writeTemp rfl (by decide) (by decide)
  exact ⟨h.1, h.2.1, h.2.2.2 (by decide)⟩

/-! ## Claim about the JSON load contract -/

/-- C9: `LoadJSON` returns an empty collection without error for a
missing or empty file; a leading byte-order mark is stripped before
parsing; any parse failure yields an error naming the source path; a
successful load is exactly the decoded document, never a partial one. -/
theorem c9_load_json_contract (path : Chars) :
    storage.LoadJSON path none = Except.ok [] ∧
    storage.LoadJSON path (some []) = Except.ok [] ∧
    (∀ (data : Chars) (ts : Tasks), data ≠ [] →
      storage.decodeJSONTasks data = some ts →
      storage.LoadJSON path (some (storage.bomChar :: data)) = Except.ok ts) ∧
    (∀ data : Chars, data ≠ [] →
      storage.decodeJSONTasks (storage.stripBOM data) = none →
      ∃ err, storage.LoadJSON path (some data) = Except.error err ∧
        storage.containsSeg path err) ∧
    (∀ (data : Chars) (ts : Tasks), storage.LoadJSON path (some data) = Except.ok ts →
      data = [] ∨ storage.decodeJSONTasks (storage.stripBOM data) = some ts) := by
  refine ⟨rfl, rfl, fun data ts hne hdec => ?_, fun data hne hdec => ?_,
    fun data ts h => ?_⟩
  · have hcons : storage.bomChar :: data ≠ [] := by simp
    have hstrip : storage.stripBOM (storage.bomChar :: data) = data := by
      simp [storage.stripBOM]
    simp [storage.LoadJSON, hstrip, hdec]
  · refine ⟨"cannot parse JSON from ".data ++ path ++ ": unmarshal error".data, ?_, ?_⟩
    · simp [storage.LoadJSON, hne, hdec]
    · exact ⟨"cannot parse JSON from ".data, ": unmarshal error".data, rfl⟩
  · by_cases hdata : data = []
    · exact Or.inl hdata
    · right
      simp only [storage.LoadJSON, hdata, if_false] at h
      cases hdec : storage.decodeJSONTasks (storage.stripBOM data) with
      | none => rw [hdec] at h; cases h
      | some ts2 => rw [hdec] at h; cases h; rfl

/-- C9 witness: loading a BOM-prefixed empty array yields the empty
collection. -/
theorem c9_load_json_contract_witness :
    storage.LoadJSON "f.json".data (some (storage.bomChar :: "[]".data)) = Except.ok [] :=
  (c9_load_json_contract "f.json".data).2.2.1 "[]".data [] (by decide) (by decide)

/-! ## Helper lemmas: lenient CSV loading -/

theorem loadLoop_post_header (rows : List storage.CsvItem) :
    ∀ (n : Nat) (acc : Tasks),
      storage.loadLoop rows (n + 1) acc = acc ++ rows.filterMap storage.itemRow := by
  induction rows with
  | nil => intro n acc; simp [storage.loadLoop]
  | cons item rest ih =>
    intro n acc
    cases item with
    | readError => simpa [storage.loadLoop, storage.itemRow] using ih n acc
    | record r =>
      have hne : ¬(n + 1 + 1 = 1) := by omega
      cases hr : storage.parseRow r with
      | some t =>
        simp [storage.loadLoop, hne, hr, storage.itemRow, ih (n + 1)]
      | none =>
        simp [storage.loadLoop, hne, hr, storage.itemRow, ih (n + 1)]

/-- C5 (amended): the first successfully read row is treated as header and
skipped; reader-level errors (which include rows whose field count differs
from the first row's) are skipped without advancing the row counter and
without producing an error; every later successfully read row is kept, in
file order, exactly when it has at least 3 fields, its trimmed id parses
as an integer, and its trimmed done parses as a boolean; and the concrete
document of the claim decodes to exactly the tasks with ids 1 and 5. -/
theorem c5_lenient_csv_decode :
    (∀ (r : List Chars) (rows : List storage.CsvItem),
      storage.loadLoop (storage.CsvItem.record r :: rows) 0 [] =
        storage.loadLoop rows 1 []) ∧
    (∀ rows : List storage.CsvItem,
      storage.loadLoop (storage.CsvItem.readError :: rows) 0 [] =
        storage.loadLoop rows 0 []) ∧
    (∀ rows : List storage.CsvItem,
      storage.loadLoop rows 1 [] = rows.filterMap storage.itemRow) ∧
    (∀ r : List Chars, r.length < 3 → storage.parseRow r = none) ∧
    (∀ f0 f1 f2 fs, storage.parseRow (f0 :: f1 :: f2 :: fs) = none ↔
      (atoi (trimSpace f0) = none ∨ parseBoolGo (trimSpace f2) = none)) ∧
    (∀ f0 f1 f2 fs id done, atoi (trimSpace f0) = some id →
      parseBoolGo (trimSpace f2) = some done →
      storage.parseRow (f0 :: f1 :: f2 :: fs) =
        some { id := id, description := trimSpace f1, done := done }) ∧
    storage.LoadCSV "ID,Description,Done\n1,Valid,false\nbad,Bad,true\n5,Valid2,true\n".data =
      [{ id := 1, description := "Valid".data, done := false },
       { id := 5, description := "Valid2".data, done := true }] := by
  refine ⟨fun r rows => ?_, fun rows => rfl, fun rows => ?_, fun r hlen => ?_,
    fun f0 f1 f2 fs => ?_, fun f0 f1 f2 fs id done hid hdone => ?_, by decide⟩
  · simp [storage.loadLoop]
  · simpa using loadLoop_post_header rows 0 []
  · match r, hlen with
    | [], _ => rfl
    | [f0], _ => rfl
    | [f0, f1], _ => rfl
    | f0 :: f1 :: f2 :: fs, h => simp at h; omega
  · unfold storage.parseRow
    cases hid : atoi (trimSpace f0) with
    | none => simp [hid]
    | some id =>
      cases hdone : parseBoolGo (trimSpace f2) with
      | none => simp [hid, hdone]
      | some b => simp [hid, hdone]
  · unfold storage.parseRow
    simp [hid, hdone]

/-- C5 witness: a trimmed three-field row with parsable id and done is
kept with the trimmed description. -/
theorem c5_lenient_csv_decode_witness :
    storage.parseRow [" 5 ".data, " x ".data, " true ".data] =
      some { id := 5, description := trimSpace " x ".data, done := true } :=
  c5_lenient_csv_decode.2.2.2.2.2.1 " 5 ".data " x ".data " true ".data [] 5 true
    (by decide) (by decide)

/-- C5 counterexample: a four-field row whose id and done fields parse
fine is nevertheless dropped, because `csv.Reader` reports `ErrFieldCount`
against the three-field header and `LoadCSV` skips every errored read —
the claim's "all successfully parsed rows are kept" fails. -/
theorem c5_lenient_csv_decode_counterexample :
    storage.LoadCSV "ID,Description,Done\n1,Valid,false,extra\n".data = [] ∧
    atoi (trimSpace "1".data) = some 1 ∧
    parseBoolGo (trimSpace "false".data) = some false ∧
    ([] : Tasks) ≠ [{ id := 1, description := "Valid".data, done := false }] := by
  decide

/-! ## Helper lemmas: decimal rendering and parsing -/

theorem digitChar_props (d : Nat) (h : d < 10) :
    (digitChar d).toNat = 48 + d ∧ isDigitChar (digitChar d) = true ∧
    isSpaceGo (digitChar d) = false ∧
    digitChar d ≠ ',' ∧ digitChar d ≠ '"' ∧ digitChar d ≠ '\r' ∧ digitChar d ≠ '\n' ∧
    digitChar d ≠ '+' ∧ digitChar d ≠ '-' ∧ digitChar d ≠ '\\' ∧ digitChar d ≠ '.' ∧
    digitChar d ≠ 'e' ∧ digitChar d ≠ 'E' := by
  interval_cases d <;>
    exact ⟨rfl, by decide, by decide, by decide, by decide, by decide, by decide,
      by decide, by decide, by decide, by decide, by decide, by decide⟩

theorem natToCharsAux_lt (n : Nat) (acc : Chars) (h : n < 10) :
    natToCharsAux n acc = digitChar n :: acc := by
  rw [natToCharsAux]
  exact dif_pos h

theorem natToCharsAux_ge (n : Nat) (acc : Chars) (h : ¬n < 10) :
    natToCharsAux n acc = natToCharsAux (n / 10) (digitChar (n % 10) :: acc) := by
  rw [natToCharsAux]
  exact dif_neg h

theorem natToCharsAux_append (n : Nat) :
    ∀ acc : Chars, natToCharsAux n acc = natToCharsAux n [] ++ acc := by
  induction n using Nat.strong_induction_on with
  | _ n ih =>
    intro acc
    by_cases h : n < 10
    · rw [natToCharsAux_lt n acc h, natToCharsAux_lt n [] h]
      rfl
    · have hd : n / 10 < n := Nat.div_lt_self (by omega) (by omega)
      rw [natToCharsAux_ge n acc h, natToCharsAux_ge n [] h,
        ih (n / 10) hd (digitChar (n % 10) :: acc),
        ih (n / 10) hd (digitChar (n % 10) :: [])]
      simp

theorem natToChars_spec (n : Nat) :
    natToChars n ≠ [] ∧ digitsVal (natToChars n) = n ∧
    ∀ c ∈ natToChars n, ∃ d, d < 10 ∧ c = digitChar d := by
  induction n using Nat.strong_induction_on with
  | _ n ih =>
    by_cases h : n < 10
    · unfold natToChars
      rw [natToCharsAux_lt n [] h]
      refine ⟨by simp, ?_, ?_⟩
      · simp [digitsVal, (digitChar_props n h).1]
      · intro c hc
        simp only [List.mem_singleton] at hc
        exact ⟨n, h, hc⟩
    · have hd : n / 10 < n := Nat.div_lt_self (by omega) (by omega)
      obtain ⟨hne, hval, hmem⟩ := ih (n / 10) hd
      have hmod : n % 10 < 10 := Nat.mod_lt n (by omega)
      unfold natToChars at hne hval hmem ⊢
      rw [natToCharsAux_ge n [] h, natToCharsAux_append (n / 10) (digitChar (n % 10) :: [])]
      refine ⟨by simp, ?_, ?_⟩
      · have hfold : digitsVal (natToCharsAux (n / 10) [] ++ digitChar (n % 10) :: []) =
            digitsVal (natToCharsAux (n / 10) []) * 10 + ((digitChar (n % 10)).toNat - 48) := by
          simp [digitsVal, List.foldl_append]
        rw [hfold, hval, (digitChar_props (n % 10) hmod).1]
        omega
      · intro c hc
        rcases List.mem_append.1 hc with h1 | h1
        · exact hmem c h1
        · simp only [List.mem_singleton] at h1
          exact ⟨n % 10, hmod, h1⟩

theorem natToChars_all_digits (n : Nat) : (natToChars n).all isDigitChar = true := by
  rw [List.all_eq_true]
  intro c hc
  obtain ⟨d, hd, rfl⟩ := (natToChars_spec n).2.2 c hc
  exact (digitChar_props d hd).2.1

theorem natToChars_head (n : Nat) :
    ∃ d rest, natToChars n = digitChar d :: rest ∧ d < 10 := by
  by_cases h : n < 10
  · exact ⟨n, [], by unfold natToChars; rw [natToCharsAux_lt n [] h], h⟩
  · have hd : n / 10 < n := Nat.div_lt_self (by omega) (by omega)
    obtain ⟨d, rest, heq, hdlt⟩ := natToChars_head (n / 10)
    refine ⟨d, rest ++ [digitChar (n % 10)], ?_, hdlt⟩
    unfold natToChars at heq ⊢
    rw [natToCharsAux_ge n [] h, natToCharsAux_append (n / 10) (digitChar (n % 10) :: []), heq]
    rfl
  termination_by n
  decreasing_by exact Nat.div_lt_self (by omega) (by omega)

theorem atoi_natToChars (n : Nat) : atoi (natToChars n) = some (n : Int) := by
  obtain ⟨d, rest, heq, hd⟩ := natToChars_head n
  obtain ⟨hne, hval, _⟩ := natToChars_spec n
  have hall := natToChars_all_digits n
  rw [heq] at hall hval ⊢
  simp only [atoi]
  rw [if_neg (by exact fun hc => (digitChar_props d hd).2.2.2.2.2.2.2.1 hc),
    if_neg (by exact fun hc => (digitChar_props d hd).2.2.2.2.2.2.2.2.1 hc),
    if_pos hall]
  exact congrArg some (congrArg Int.ofNat hval)

theorem atoi_intToChars (i : Int) : atoi (intToChars i) = some i := by
  unfold intToChars
  by_cases h : i < 0
  · rw [if_pos h]
    obtain ⟨d, rest, heq, hd⟩ := natToChars_head i.natAbs
    obtain ⟨hne, hval, _⟩ := natToChars_spec i.natAbs
    have hall := natToChars_all_digits i.natAbs
    simp only [atoi]
    rw [if_neg (by decide), if_pos trivial, if_pos ⟨hne, hall⟩]
    have : ((digitsVal (natToChars i.natAbs) : Int)) = -i := by
      rw [hval]; omega
    rw [this]
    simp
  · rw [if_neg h]
    have : ((i.natAbs : Int)) = i := by omega
    rw [atoi_natToChars i.natAbs, this]

theorem parseBool_formatBool (b : Bool) : parseBoolGo (formatBool b) = some b := by
  cases b <;> decide

/-! ## Helper lemmas: trimming and plain decimal fields -/

theorem dropWhile_eq_self_of_nonspace (s : Chars) (h : ∀ c ∈ s, isSpaceGo c = false) :
    s.dropWhile isSpaceGo = s := by
  cases s with
  | nil => rfl
  | cons c rest =>
    rw [List.dropWhile_cons]
    simp [h c (List.mem_cons_self c rest)]

theorem trimSpace_of_nonspace (s : Chars) (h : ∀ c ∈ s, isSpaceGo c = false) :
    trimSpace s = s := by
  unfold trimSpace
  rw [dropWhile_eq_self_of_nonspace s h,
    dropWhile_eq_self_of_nonspace s.reverse (fun c hc => h c (List.mem_reverse.1 hc)),
    List.reverse_reverse]

theorem intToChars_chars (i : Int) :
    ∀ c ∈ intToChars i, c = '-' ∨ ∃ d, d < 10 ∧ c = digitChar d := by
  intro c hc
  unfold intToChars at hc
  by_cases h : i < 0
  · rw [if_pos h] at hc
    rcases List.mem_cons.1 hc with h1 | h1
    · exact Or.inl h1
    · exact Or.inr ((natToChars_spec _).2.2 c h1)
  · rw [if_neg h] at hc
    exact Or.inr ((natToChars_spec _).2.2 c hc)

theorem intToChars_head (i : Int) :
    ∃ c rest, intToChars i = c :: rest ∧ (c = '-' ∨ ∃ d, d < 10 ∧ c = digitChar d) := by
  unfold intToChars
  by_cases h : i < 0
  · rw [if_pos h]
    exact ⟨'-', _, rfl, Or.inl rfl⟩
  · rw [if_neg h]
    obtain ⟨d, rest, heq, hd⟩ := natToChars_head i.natAbs
    exact ⟨digitChar d, rest, heq, Or.inr ⟨d, hd, rfl⟩⟩

theorem trimSpace_intToChars (i : Int) : trimSpace (intToChars i) = intToChars i := by
  apply trimSpace_of_nonspace
  intro c hc
  rcases intToChars_chars i c hc with rfl | ⟨d, hd, rfl⟩
  · decide
  · exact (digitChar_props d hd).2.2.1

theorem trimSpace_formatBool (b : Bool) : trimSpace (formatBool b) = formatBool b := by
  cases b <;> decide

theorem digitChar_not_special (d : Nat) (h : d < 10) :
    ((digitChar d == ',') || (digitChar d == '"') || (digitChar d == '\r') ||
      (digitChar d == '\n')) = false := by
  interval_cases d <;> decide

theorem fieldNeedsQuotes_intToChars (i : Int) :
    storage.fieldNeedsQuotes (intToChars i) = false := by
  obtain ⟨c, rest, heq, hc⟩ := intToChars_head i
  have hchars := intToChars_chars i
  rw [heq] at hchars ⊢
  unfold storage.fieldNeedsQuotes
  have h1 : ((c :: rest) == ['\\', '.']) = false := by
    rw [beq_eq_false_iff_ne]
    intro hcon
    injection hcon with hc1 _
    rcases hc with rfl | ⟨d, hd, rfl⟩
    · exact absurd hc1 (by decide)
    · exact absurd hc1 (digitChar_props d hd).2.2.2.2.2.2.2.2.2.1
  have h2 : (c :: rest).any
      (fun d => d == ',' || d == '"' || d == '\r' || d == '\n') = false := by
    rw [List.any_eq_false]
    intro x hx
    rcases hchars x hx with rfl | ⟨d, hd, rfl⟩
    · decide
    · simp [digitChar_not_special d hd]
  have h3 : isSpaceGo c = false := by
    rcases hc with rfl | ⟨d, hd, rfl⟩
    · decide
    · exact (digitChar_props d hd).2.2.1
  simp [h1, h2, h3]

/-! ## Helper lemmas: CSV writer output parses back -/

theorem takeWhile_append_stop (p : Char → Bool) (f : Chars) (hf : ∀ c ∈ f, p c = true)
    (d : Char) (hd : p d = false) (rest : Chars) :
    (f ++ d :: rest).takeWhile p = f ∧ (f ++ d :: rest).dropWhile p = d :: rest := by
  induction f with
  | nil => simp [List.takeWhile_cons, List.dropWhile_cons, hd]
  | cons c cs ih =>
    have hc := hf c (by simp)
    have ih2 := ih fun x hx => hf x (by simp [hx])
    simp [List.takeWhile_cons, List.dropWhile_cons, hc, ih2.1, ih2.2]

theorem parseQuoted_escQuote (f : Chars) :
    ∀ rest : Chars,
      storage.parseQuoted (storage.escQuote f ++ '"' :: ',' :: rest) =
        storage.FieldOut.ok f false rest ∧
      storage.parseQuoted (storage.escQuote f ++ '"' :: '\n' :: rest) =
        storage.FieldOut.ok f true rest := by
  induction f with
  | nil => intro rest; exact ⟨rfl, rfl⟩
  | cons c cs ih =>
    intro rest
    by_cases hq : c = '"'
    · subst hq
      have he : storage.escQuote ('"' :: cs) = '"' :: '"' :: storage.escQuote cs := by
        rw [storage.escQuote, if_pos rfl]
      rw [he]
      constructor
      · show storage.parseQuoted ('"' :: ('"' :: (storage.escQuote cs ++ '"' :: ',' :: rest))) = _
        simp [storage.parseQuoted, (ih rest).1]
      · show storage.parseQuoted ('"' :: ('"' :: (storage.escQuote cs ++ '"' :: '\n' :: rest))) = _
        simp [storage.parseQuoted, (ih rest).2]
    · have he : storage.escQuote (c :: cs) = c :: storage.escQuote cs := by
        rw [storage.escQuote, if_neg hq]
      rw [he]
      constructor
      · show storage.parseQuoted (c :: (storage.escQuote cs ++ '"' :: ',' :: rest)) = _
        rw [storage.parseQuoted.eq_def]
        simp [hq, (ih rest).1]
      · show storage.parseQuoted (c :: (storage.escQuote cs ++ '"' :: '\n' :: rest)) = _
        rw [storage.parseQuoted.eq_def]
        simp [hq, (ih rest).2]

theorem parseUnquoted_plain (f : Chars)
    (hf : ∀ c ∈ f, (c == ',' || c == '"' || c == '\r' || c == '\n') = false)
    (d : Char) (rest : Chars) (hd : d = ',' ∨ d = '\n') :
    storage.parseUnquoted (f ++ d :: rest) = storage.FieldOut.ok f (d == '\n') rest := by
  have hp : ∀ c ∈ f, (fun c => !(c == ',' || c == '\n')) c = true := by
    intro c hc
    have := hf c hc
    simp only [Bool.or_eq_false_iff] at this
    simp [this.1.1.1, this.2]
  have hpd : (fun c => !(c == ',' || c == '\n')) d = false := by
    rcases hd with rfl | rfl <;> decide
  obtain ⟨htake, hdrop⟩ := takeWhile_append_stop _ f hp d hpd rest
  unfold storage.parseUnquoted
  simp only [htake, hdrop]
  have hnq : f.any (fun c => c == '"') = false := by
    rw [List.any_eq_false]
    intro x hx
    have := hf x hx
    simp only [Bool.or_eq_false_iff] at this
    simp [this.1.1.2]
  rw [if_neg (by simp [hnq])]
  rcases hd with rfl | rfl
  · simp
  · simp

theorem parseField_writeField (f : Chars) (d : Char) (rest : Chars)
    (hd : d = ',' ∨ d = '\n') :
    storage.parseField (storage.writeField f ++ d :: rest) =
      storage.FieldOut.ok f (d == '\n') rest := by
  unfold storage.writeField
  by_cases hq : storage.fieldNeedsQuotes f = true
  · rw [if_pos hq]
    have happ : ('"' :: storage.escQuote f ++ ['"']) ++ d :: rest =
        '"' :: (storage.escQuote f ++ '"' :: d :: rest) := by simp
    rw [happ]
    rcases hd with rfl | rfl
    · simp [storage.parseField, (parseQuoted_escQuote f rest).1]
    · simp [storage.parseField, (parseQuoted_escQuote f rest).2]
  · rw [if_neg hq]
    rw [Bool.not_eq_true] at hq
    cases f with
    | nil =>
      show storage.parseField (d :: rest) = _
      have hdq : ¬d = '"' := by rcases hd with rfl | rfl <;> decide
      simp only [storage.parseField]
      rw [if_neg hdq]
      exact parseUnquoted_plain [] (by simp) d rest hd
    | cons c cs =>
      unfold storage.fieldNeedsQuotes at hq
      simp only [Bool.or_eq_false_iff] at hq
      have hany := hq.1.2
      rw [List.any_eq_false] at hany
      have hchars : ∀ x ∈ c :: cs, (x == ',' || x == '"' || x == '\r' || x == '\n') = false := by
        intro x hx
        have := hany x hx
        simpa using this
      have hcq : ¬c = '"' := by
        have := hchars c (by simp)
        simp only [Bool.or_eq_false_iff] at this
        simpa using this.1.1.2
      show storage.parseField (c :: (cs ++ d :: rest)) = _
      simp only [storage.parseField]
      rw [if_neg hcq]
      exact parseUnquoted_plain (c :: cs) hchars d rest hd

theorem writeRecord3_append (f0 f1 f2 : Chars) (rest : Chars) :
    storage.writeRecord [f0, f1, f2] ++ rest =
      storage.writeField f0 ++ ',' :: (storage.writeField f1 ++ ',' ::
        (storage.writeField f2 ++ '\n' :: rest)) := by
  simp [storage.writeRecord, storage.writeFieldsSep]

theorem parseFieldsAux_step (fuel : Nat) (s : Chars) :
    storage.parseFieldsAux (fuel + 1) s =
      match storage.parseField s with
      | storage.FieldOut.bad rest => storage.FieldsOut.bad rest
      | storage.FieldOut.ok f true rest => storage.FieldsOut.ok [f] rest
      | storage.FieldOut.ok f false rest =>
        match storage.parseFieldsAux fuel rest with
        | storage.FieldsOut.ok fs rest2 => storage.FieldsOut.ok (f :: fs) rest2
        | storage.FieldsOut.bad rest2 => storage.FieldsOut.bad rest2 := rfl

theorem parseFieldsAux_record3 (f0 f1 f2 : Chars) (rest : Chars) (fuel : Nat) :
    storage.parseFieldsAux (fuel + 3)
      (storage.writeField f0 ++ ',' :: (storage.writeField f1 ++ ',' ::
        (storage.writeField f2 ++ '\n' :: rest))) =
      storage.FieldsOut.ok [f0, f1, f2] rest := by
  have h0 : storage.parseField (storage.writeField f0 ++ ',' ::
      (storage.writeField f1 ++ ',' :: (storage.writeField f2 ++ '\n' :: rest))) =
      storage.FieldOut.ok f0 false (storage.writeField f1 ++ ',' ::
        (storage.writeField f2 ++ '\n' :: rest)) := by
    simpa using parseField_writeField f0 ','
      (storage.writeField f1 ++ ',' :: (storage.writeField f2 ++ '\n' :: rest)) (Or.inl rfl)
  have h1 : storage.parseField (storage.writeField f1 ++ ',' ::
      (storage.writeField f2 ++ '\n' :: rest)) =
      storage.FieldOut.ok f1 false (storage.writeField f2 ++ '\n' :: rest) := by
    simpa using parseField_writeField f1 ','
      (storage.writeField f2 ++ '\n' :: rest) (Or.inl rfl)
  have h2 : storage.parseField (storage.writeField f2 ++ '\n' :: rest) =
      storage.FieldOut.ok f2 true rest := by
    simpa using parseField_writeField f2 '\n' rest (Or.inr rfl)
  show storage.parseFieldsAux (fuel + 2 + 1) _ = _
  rw [parseFieldsAux_step (fuel + 2), h0]
  show (match storage.parseFieldsAux (fuel + 1 + 1) _ with
    | storage.FieldsOut.ok fs rest2 => storage.FieldsOut.ok (f0 :: fs) rest2
    | storage.FieldsOut.bad rest2 => storage.FieldsOut.bad rest2) = _
  rw [parseFieldsAux_step (fuel + 1), h1]
  show (match (match storage.parseFieldsAux (fuel + 1) _ with
      | storage.FieldsOut.ok fs rest2 => storage.FieldsOut.ok (f1 :: fs) rest2
      | storage.FieldsOut.bad rest2 => storage.FieldsOut.bad rest2) with
    | storage.FieldsOut.ok fs rest2 => storage.FieldsOut.ok (f0 :: fs) rest2
    | storage.FieldsOut.bad rest2 => storage.FieldsOut.bad rest2) = _
  rw [show fuel + 1 = fuel + 0 + 1 from rfl, parseFieldsAux_step (fuel + 0), h2]

theorem normalizeCRLF_of_noCR (s : Chars) (h : ∀ c ∈ s, c ≠ '\r') :
    storage.normalizeCRLF s = s := by
  induction s with
  | nil => rfl
  | cons c rest ih =>
    cases rest with
    | nil => rfl
    | cons c2 rest2 =>
      show storage.normalizeCRLF (c :: c2 :: rest2) = _
      rw [storage.normalizeCRLF]
      rw [if_neg fun hc => h c (by simp) hc.1]
      rw [ih fun x hx => h x (by simp [hx])]

theorem mem_escQuote (f : Chars) (c : Char) (hc : c ∈ storage.escQuote f) :
    c = '"' ∨ c ∈ f := by
  induction f with
  | nil => cases hc
  | cons a rest ih =>
    rw [storage.escQuote] at hc
    by_cases ha : a = '"'
    · rw [if_pos ha] at hc
      simp only [List.mem_cons] at hc
      rcases hc with h1 | h1 | h1
      · exact Or.inl h1
      · exact Or.inl h1
      · rcases ih h1 with h2 | h2
        · exact Or.inl h2
        · exact Or.inr (by simp [h2])
    · rw [if_neg ha] at hc
      simp only [List.mem_cons] at hc
      rcases hc with h1 | h1
      · exact Or.inr (by simp [h1])
      · rcases ih h1 with h2 | h2
        · exact Or.inl h2
        · exact Or.inr (by simp [h2])

theorem mem_writeField (f : Chars) (c : Char) (hc : c ∈ storage.writeField f) :
    c = '"' ∨ c ∈ f := by
  unfold storage.writeField at hc
  by_cases hq : storage.fieldNeedsQuotes f = true
  · rw [if_pos hq] at hc
    simp only [List.cons_append, List.mem_cons] at hc
    rcases hc with h1 | h1
    · exact Or.inl h1
    · rcases List.mem_append.1 h1 with h2 | h2
      · exact mem_escQuote f c h2
      · simp only [List.mem_singleton] at h2
        exact Or.inl h2
  · rw [if_neg hq] at hc
    exact Or.inr hc

theorem mem_writeFieldsSep (r : List Chars) (c : Char)
    (hc : c ∈ storage.writeFieldsSep r) :
    c = '"' ∨ c = ',' ∨ ∃ f ∈ r, c ∈ f := by
  induction r with
  | nil => cases hc
  | cons f rest ih =>
    cases rest with
    | nil =>
      rcases mem_writeField f c hc with h1 | h1
      · exact Or.inl h1
      · exact Or.inr (Or.inr ⟨f, by simp, h1⟩)
    | cons f2 rest2 =>
      rw [show storage.writeFieldsSep (f :: f2 :: rest2) =
        storage.writeField f ++ ',' :: storage.writeFieldsSep (f2 :: rest2) from rfl] at hc
      rcases List.mem_append.1 hc with h1 | h1
      · rcases mem_writeField f c h1 with h2 | h2
        · exact Or.inl h2
        · exact Or.inr (Or.inr ⟨f, by simp, h2⟩)
      · rcases List.mem_cons.1 h1 with h2 | h2
        · exact Or.inr (Or.inl h2)
        · rcases ih h2 with h3 | h3 | ⟨g, hg, h3⟩
          · exact Or.inl h3
          · exact Or.inr (Or.inl h3)
          · exact Or.inr (Or.inr ⟨g, by simp [hg], h3⟩)

theorem mem_writeRecord (r : List Chars) (c : Char) (hc : c ∈ storage.writeRecord r) :
    c = '"' ∨ c = ',' ∨ c = '\n' ∨ ∃ f ∈ r, c ∈ f := by
  unfold storage.writeRecord at hc
  rcases List.mem_append.1 hc with h1 | h1
  · rcases mem_writeFieldsSep r c h1 with h2 | h2 | ⟨f, hf, h2⟩
    · exact Or.inl h2
    · exact Or.inr (Or.inl h2)
    · exact Or.inr (Or.inr (Or.inr ⟨f, hf, h2⟩))
  · simp only [List.mem_singleton] at h1
    exact Or.inr (Or.inr (Or.inl h1))

theorem SaveCSV_no_CR (tasks : Tasks) (h : ∀ t ∈ tasks, '\r' ∉ t.description) :
    ∀ c ∈ storage.SaveCSV tasks, c ≠ '\r' := by
  intro c hc
  unfold storage.SaveCSV at hc
  rcases List.mem_append.1 hc with h1 | h1
  · have hhdr : storage.writeRecord ["ID".data, "Description".data, "Done".data] =
        "ID,Description,Done\n".data := by decide
    rw [hhdr] at h1
    have : ∀ x ∈ "ID,Description,Done\n".data, x ≠ '\r' := by decide
    exact this c h1
  · obtain ⟨l, hl, hcl⟩ := List.mem_flatten.1 h1
    obtain ⟨t, ht, rfl⟩ := List.mem_map.1 hl
    rcases mem_writeRecord _ c hcl with h2 | h2 | h2 | ⟨f, hf, h2⟩
    · subst h2; decide
    · subst h2; decide
    · subst h2; decide
    · simp only [storage.taskRecord, List.mem_cons, List.not_mem_nil, or_false] at hf
      rcases hf with hf | hf | hf
      · subst hf
        intro hcon
        subst hcon
        rcases intToChars_chars t.id '\r' h2 with h3 | ⟨d, hd, h3⟩
        · exact absurd h3 (by decide)
        · exact absurd h3.symm (digitChar_props d hd).2.2.2.2.2.1
      · subst hf
        intro hcon
        subst hcon
        exact h t ht h2
      · subst hf
        intro hcon
        subst hcon
        unfold formatBool at h2
        cases hdone : t.done <;> rw [hdone] at h2 <;> revert h2 <;> decide

theorem parseFields_record3 (f0 f1 f2 : Chars) (rest : Chars) :
    storage.parseFields (storage.writeRecord [f0, f1, f2] ++ rest) =
      storage.FieldsOut.ok [f0, f1, f2] rest := by
  unfold storage.parseFields
  rw [writeRecord3_append]
  have hlen : (storage.writeField f0 ++ ',' :: (storage.writeField f1 ++ ',' ::
      (storage.writeField f2 ++ '\n' :: rest))).length + 1 =
      ((storage.writeField f0 ++ ',' :: (storage.writeField f1 ++ ',' ::
      (storage.writeField f2 ++ '\n' :: rest))).length - 2) + 3 := by
    simp only [List.length_append, List.length_cons]
    omega
  rw [hlen]
  exact parseFieldsAux_record3 f0 f1 f2 rest _

theorem parseRecordsAux_step (fuel : Nat) (fpr : Option Nat) (s : Chars) :
    storage.parseRecordsAux (fuel + 1) fpr s =
      match s with
      | [] => []
      | c :: rest =>
        if c = '\n' then storage.parseRecordsAux fuel fpr rest
        else
          match storage.parseFields (c :: rest) with
          | storage.FieldsOut.bad rest2 =>
            storage.CsvItem.readError :: storage.parseRecordsAux fuel fpr rest2
          | storage.FieldsOut.ok r rest2 =>
            match fpr with
            | none =>
              storage.CsvItem.record r :: storage.parseRecordsAux fuel (some r.length) rest2
            | some n =>
              (if r.length = n then storage.CsvItem.record r else storage.CsvItem.readError) ::
                storage.parseRecordsAux fuel (some n) rest2 := rfl

theorem parseRecordsAux_nil (fuel : Nat) (fpr : Option Nat) :
    storage.parseRecordsAux fuel fpr [] = [] := by
  cases fuel <;> rfl

theorem parseRecordsAux_record3line (fuel : Nat) (fpr : Option Nat)
    (f0 f1 f2 : Chars) (rest : Chars)
    (hhead : ∃ c cs, storage.writeField f0 = c :: cs ∧ ¬c = '\n') :
    storage.parseRecordsAux (fuel + 1) fpr (storage.writeRecord [f0, f1, f2] ++ rest) =
      (match fpr with
       | none => storage.CsvItem.record [f0, f1, f2]
       | some n =>
         if (3 : Nat) = n then storage.CsvItem.record [f0, f1, f2]
         else storage.CsvItem.readError) ::
        storage.parseRecordsAux fuel
          (match fpr with | none => some 3 | some n => some n) rest := by
  obtain ⟨c, cs, hw, hc⟩ := hhead
  have hexp : storage.writeRecord [f0, f1, f2] ++ rest =
      c :: (cs ++ ',' :: (storage.writeField f1 ++ ',' ::
        (storage.writeField f2 ++ '\n' :: rest))) := by
    rw [writeRecord3_append, hw]
    rfl
  rw [hexp, parseRecordsAux_step]
  show (if c = '\n' then _ else _) = _
  rw [if_neg hc, ← hexp, parseFields_record3]
  cases fpr with
  | none => simp
  | some n => simp

theorem flatten_taskRecords_length (tasks : Tasks) :
    tasks.length ≤
      ((tasks.map fun t => storage.writeRecord (storage.taskRecord t)).flatten).length := by
  induction tasks with
  | nil => simp
  | cons t ts ih =>
    simp only [List.map_cons, List.flatten_cons, List.length_append, List.length_cons]
    have h1 : 1 ≤ (storage.writeRecord (storage.taskRecord t)).length := by
      unfold storage.writeRecord
      simp
    omega

theorem writeField_id_head (i : Int) :
    ∃ c cs, storage.writeField (intToChars i) = c :: cs ∧ ¬c = '\n' := by
  have hwf : storage.writeField (intToChars i) = intToChars i := by
    unfold storage.writeField
    simp [fieldNeedsQuotes_intToChars]
  obtain ⟨c, cs, heq, hc⟩ := intToChars_head i
  refine ⟨c, cs, by rw [hwf, heq], ?_⟩
  rcases hc with rfl | ⟨d, hd, rfl⟩
  · decide
  · exact (digitChar_props d hd).2.2.2.2.2.2.1

theorem parseRecords_encoded (tasks : Tasks) :
    ∀ fuel : Nat, tasks.length < fuel →
      storage.parseRecordsAux fuel (some 3)
        ((tasks.map fun t => storage.writeRecord (storage.taskRecord t)).flatten) =
        tasks.map fun t => storage.CsvItem.record (storage.taskRecord t) := by
  induction tasks with
  | nil => intro fuel _; exact parseRecordsAux_nil fuel (some 3)
  | cons t ts ih =>
    intro fuel hf
    obtain ⟨F, rfl⟩ : ∃ F, fuel = F + 1 := ⟨fuel - 1, by omega⟩
    simp only [List.map_cons, List.flatten_cons]
    rw [show storage.taskRecord t =
      [intToChars t.id, t.description, formatBool t.done] from rfl]
    rw [parseRecordsAux_record3line F (some 3) _ _ _ _ (writeField_id_head t.id)]
    simp only [if_pos rfl]
    rw [ih F (by simp at hf; omega)]
    rfl

theorem csvRead_SaveCSV (tasks : Tasks)
    (hCR : ∀ t ∈ tasks, '\r' ∉ t.description) :
    storage.csvRead (storage.SaveCSV tasks) =
      storage.CsvItem.record ["ID".data, "Description".data, "Done".data] ::
        (tasks.map fun t => storage.CsvItem.record (storage.taskRecord t)) := by
  unfold storage.csvRead
  rw [normalizeCRLF_of_noCR _ (SaveCSV_no_CR tasks hCR)]
  show storage.parseRecordsAux ((storage.SaveCSV tasks).length + 1) none
      (storage.SaveCSV tasks) = _
  unfold storage.SaveCSV
  rw [parseRecordsAux_record3line _ none _ _ _ _
    (⟨'I', ['D'], by decide, by decide⟩)]
  have hlen : tasks.length < (storage.writeRecord ["ID".data, "Description".data, "Done".data] ++
      (tasks.map fun t => storage.writeRecord (storage.taskRecord t)).flatten).length := by
    have h1 := flatten_taskRecords_length tasks
    have h2 : (storage.writeRecord ["ID".data, "Description".data, "Done".data]).length = 20 := by
      decide
    rw [List.length_append, h2]
    omega
  rw [parseRecords_encoded tasks _ hlen]

theorem parseRow_taskRecord (t : todo.Task)
    (htrim : trimSpace t.description = t.description) :
    storage.parseRow (storage.taskRecord t) = some t := by
  obtain ⟨i, d, b⟩ := t
  simp only [storage.taskRecord, storage.parseRow]
  rw [trimSpace_intToChars, atoi_intToChars]
  show (match parseBoolGo (trimSpace (formatBool b)) with
    | none => none
    | some done =>
      some ({ id := i, description := trimSpace d, done := done } : todo.Task)) = _
  rw [trimSpace_formatBool, parseBool_formatBool]
  simp only at htrim
  rw [htrim]

theorem filterMap_taskRecords (tasks : Tasks)
    (htrim : ∀ t ∈ tasks, trimSpace t.description = t.description) :
    (tasks.map fun t => storage.CsvItem.record (storage.taskRecord t)).filterMap
      storage.itemRow = tasks := by
  induction tasks with
  | nil => rfl
  | cons t ts ih =>
    simp only [List.map_cons, List.filterMap_cons, storage.itemRow,
      parseRow_taskRecord t (htrim t (by simp))]
    rw [ih fun u hu => htrim u (by simp [hu])]

theorem LoadCSV_SaveCSV (tasks : Tasks)
    (h : ∀ t ∈ tasks, trimSpace t.description = t.description ∧ '\r' ∉ t.description) :
    storage.LoadCSV (storage.SaveCSV tasks) = tasks := by
  unfold storage.LoadCSV
  rw [csvRead_SaveCSV tasks fun t ht => (h t ht).2]
  show storage.loadLoop _ 0 [] = tasks
  rw [show storage.loadLoop
      (storage.CsvItem.record ["ID".data, "Description".data, "Done".data] ::
        (tasks.map fun t => storage.CsvItem.record (storage.taskRecord t))) 0 [] =
      storage.loadLoop
        (tasks.map fun t => storage.CsvItem.record (storage.taskRecord t)) 1 [] from by
    simp [storage.loadLoop]]
  rw [loadLoop_post_header _ 0 []]
  rw [filterMap_taskRecords tasks fun t ht => (h t ht).1]
  rfl

/-! ## Helper lemmas: JSON string encoding parses back -/

theorem hexVal_hexDigitChar (n : Nat) (h : n < 16) :
    storage.hexVal (storage.hexDigitChar n) = some n := by
  interval_cases n <;> decide

theorem parseU4_zeros (a b : Nat) (ha : a < 16) (hb : b < 16) (X : Chars) :
    storage.parseU4 ('0' :: '0' :: storage.hexDigitChar a :: storage.hexDigitChar b :: X) =
      some (a * 16 + b, X) := by
  simp only [storage.parseU4]
  rw [show storage.hexVal '0' = some 0 from by decide,
    hexVal_hexDigitChar a ha, hexVal_hexDigitChar b hb]
  norm_num

theorem parseUEscapeCont_plain (v : Nat) (hlo : v < 0xD800) (rest : Chars) :
    storage.parseUEscapeCont v rest = some (Char.ofNat v, rest) := by
  unfold storage.parseUEscapeCont
  rw [if_neg (by omega), if_neg (by omega)]

theorem parseUEscape_below_x80 (t : Nat) (ht : t < 0x80) (X : Chars) :
    storage.parseUEscape ('0' :: '0' ::
      storage.hexDigitChar (t / 16) :: storage.hexDigitChar (t % 16) :: X) =
      some (Char.ofNat t, X) := by
  unfold storage.parseUEscape
  rw [parseU4_zeros (t / 16) (t % 16) (by omega) (Nat.mod_lt t (by omega)) X]
  show storage.parseUEscapeCont (t / 16 * 16 + t % 16) X = _
  have hv : t / 16 * 16 + t % 16 = t := by omega
  rw [hv, parseUEscapeCont_plain t (by omega) X]

theorem parseU4_u2028 (X : Chars) :
    storage.parseU4 ('2' :: '0' :: '2' :: '8' :: X) = some (0x2028, X) := by
  simp only [storage.parseU4]
  rw [show storage.hexVal '2' = some 2 from by decide,
    show storage.hexVal '0' = some 0 from by decide,
    show storage.hexVal '8' = some 8 from by decide]

theorem parseU4_u2029 (X : Chars) :
    storage.parseU4 ('2' :: '0' :: '2' :: '9' :: X) = some (0x2029, X) := by
  simp only [storage.parseU4]
  rw [show storage.hexVal '2' = some 2 from by decide,
    show storage.hexVal '0' = some 0 from by decide,
    show storage.hexVal '9' = some 9 from by decide]

theorem parseUEscape_u2028 (X : Chars) :
    storage.parseUEscape ('2' :: '0' :: '2' :: '8' :: X) =
      some (Char.ofNat 0x2028, X) := by
  unfold storage.parseUEscape
  rw [parseU4_u2028 X]
  show storage.parseUEscapeCont 0x2028 X = _
  exact parseUEscapeCont_plain 0x2028 (by norm_num) X

theorem parseUEscape_u2029 (X : Chars) :
    storage.parseUEscape ('2' :: '0' :: '2' :: '9' :: X) =
      some (Char.ofNat 0x2029, X) := by
  unfold storage.parseUEscape
  rw [parseU4_u2029 X]
  show storage.parseUEscapeCont 0x2029 X = _
  exact parseUEscapeCont_plain 0x2029 (by norm_num) X

theorem encodeJSONChar_ne_nil (c : Char) : storage.encodeJSONChar c ≠ [] := by
  unfold storage.encodeJSONChar
  split_ifs <;> simp

theorem length_le_flatten_encode (s : Chars) :
    s.length ≤ ((s.map storage.encodeJSONChar).flatten).length := by
  induction s with
  | nil => simp
  | cons c cs ih =>
    simp only [List.map_cons, List.flatten_cons, List.length_append, List.length_cons]
    have h1 : 1 ≤ (storage.encodeJSONChar c).length :=
      List.length_pos.2 (encodeJSONChar_ne_nil c)
    omega

theorem parseStringBodyF_encoded (s : Chars) :
    ∀ (fuel : Nat) (rest : Chars), s.length < fuel →
      storage.parseStringBodyF fuel
        ((s.map storage.encodeJSONChar).flatten ++ '"' :: rest) = some (s, rest) := by
  induction s with
  | nil =>
    intro fuel rest hf
    obtain ⟨F, rfl⟩ : ∃ F, fuel = F + 1 := ⟨fuel - 1, by omega⟩
    rfl
  | cons c cs ih =>
    intro fuel rest hf
    obtain ⟨F, rfl⟩ : ∃ F, fuel = F + 1 := ⟨fuel - 1, by omega⟩
    have hF : cs.length < F := by
      simp only [List.length_cons] at hf
      omega
    have ihF := ih F rest hF
    simp only [List.map_cons, List.flatten_cons, List.append_assoc]
    unfold storage.encodeJSONChar
    by_cases h1 : c = '"'
    · subst h1
      rw [if_pos rfl]
      show storage.parseStringBodyF (F + 1)
        ('\\' :: '"' :: ((cs.map storage.encodeJSONChar).flatten ++ '"' :: rest)) = _
      rw [storage.parseStringBodyF]
      simp [ihF, storage.consChar]
    · rw [if_neg h1]
      by_cases h2 : c = '\\'
      · subst h2
        rw [if_pos rfl]
        show storage.parseStringBodyF (F + 1)
          ('\\' :: '\\' :: ((cs.map storage.encodeJSONChar).flatten ++ '"' :: rest)) = _
        rw [storage.parseStringBodyF]
        simp [ihF, storage.consChar]
      · rw [if_neg h2]
        by_cases h3 : c = '\n'
        · subst h3
          rw [if_pos rfl]
          show storage.parseStringBodyF (F + 1)
            ('\\' :: 'n' :: ((cs.map storage.encodeJSONChar).flatten ++ '"' :: rest)) = _
          rw [storage.parseStringBodyF]
          simp [ihF, storage.consChar]
        · rw [if_neg h3]
          by_cases h4 : c = '\r'
          · subst h4
            rw [if_pos rfl]
            show storage.parseStringBodyF (F + 1)
              ('\\' :: 'r' :: ((cs.map storage.encodeJSONChar).flatten ++ '"' :: rest)) = _
            rw [storage.parseStringBodyF]
            simp [ihF, storage.consChar]
          · rw [if_neg h4]
            by_cases h5 : c = '\t'
            · subst h5
              rw [if_pos rfl]
              show storage.parseStringBodyF (F + 1)
                ('\\' :: 't' :: ((cs.map storage.encodeJSONChar).flatten ++ '"' :: rest)) = _
              rw [storage.parseStringBodyF]
              simp [ihF, storage.consChar]
            · rw [if_neg h5]
              by_cases h6 : (decide (c.toNat < 0x20) || decide (c = '<') ||
                  decide (c = '>') || decide (c = '&')) = true
              · rw [if_pos h6]
                have hlt : c.toNat < 0x80 := by
                  simp only [Bool.or_eq_true, decide_eq_true_eq] at h6
                  rcases h6 with ((h | h) | h) | h
                  · omega
                  · subst h; decide
                  · subst h; decide
                  · subst h; decide
                show storage.parseStringBodyF (F + 1)
                  ('\\' :: 'u' :: '0' :: '0' :: storage.hexDigitChar (c.toNat / 16) ::
                    storage.hexDigitChar (c.toNat % 16) ::
                    ((cs.map storage.encodeJSONChar).flatten ++ '"' :: rest)) = _
                rw [storage.parseStringBodyF]
                simp [parseUEscape_below_x80 c.toNat hlt, Char.ofNat_toNat,
                  ihF, storage.consChar]
              · rw [if_neg h6]
                by_cases h7 : c.toNat = 0x2028
                · rw [if_pos h7]
                  show storage.parseStringBodyF (F + 1)
                    ('\\' :: 'u' :: '2' :: '0' :: '2' :: '8' ::
                      ((cs.map storage.encodeJSONChar).flatten ++ '"' :: rest)) = _
                  rw [storage.parseStringBodyF]
                  have hc : Char.ofNat 0x2028 = c := by rw [← h7, Char.ofNat_toNat]
                  simp [parseUEscape_u2028, hc, ihF, storage.consChar]
                  exact hc
                · rw [if_neg h7]
                  by_cases h8 : c.toNat = 0x2029
                  · rw [if_pos h8]
                    show storage.parseStringBodyF (F + 1)
                      ('\\' :: 'u' :: '2' :: '0' :: '2' :: '9' ::
                        ((cs.map storage.encodeJSONChar).flatten ++ '"' :: rest)) = _
                    rw [storage.parseStringBodyF]
                    have hc : Char.ofNat 0x2029 = c := by rw [← h8, Char.ofNat_toNat]
                    simp [parseUEscape_u2029, hc, ihF, storage.consChar]
                    exact hc
                  · rw [if_neg h8]
                    show storage.parseStringBodyF (F + 1)
                      (c :: ((cs.map storage.encodeJSONChar).flatten ++ '"' :: rest)) = _
                    have hlt : ¬c.toNat < 0x20 := by
                      simp only [Bool.or_eq_true, decide_eq_true_eq] at h6
                      push_neg at h6
                      omega
                    rw [storage.parseStringBodyF.eq_def]
                    simp [h1, h2, hlt, ihF, storage.consChar]

theorem parseStringBody_encoded (s : Chars) (rest : Chars) :
    storage.parseStringBody ((s.map storage.encodeJSONChar).flatten ++ '"' :: rest) =
      some (s, rest) := by
  unfold storage.parseStringBody
  apply parseStringBodyF_encoded
  have h1 := length_le_flatten_encode s
  simp only [List.length_append, List.length_cons]
  omega

/-! ## Helper lemmas: JSON number encoding parses back, whitespace -/

theorem natToChars_head_ne_zero (n : Nat) (hn : 1 ≤ n) :
    (natToChars n).head? ≠ some '0' := by
  induction n using Nat.strong_induction_on with
  | _ n ih =>
    by_cases h : n < 10
    · unfold natToChars
      rw [natToCharsAux_lt n [] h]
      simp only [List.head?_cons, ne_eq, Option.some.injEq]
      intro hc
      have htn := congrArg Char.toNat hc
      rw [(digitChar_props n h).1] at htn
      have h0 : ('0').toNat = 48 := rfl
      omega
    · have hdlt : n / 10 < n := Nat.div_lt_self (by omega) (by omega)
      have hn10 : 1 ≤ n / 10 := by omega
      obtain ⟨d, tail, heq, hdig⟩ := natToChars_head (n / 10)
      have heq' : natToCharsAux (n / 10) [] = digitChar d :: tail := heq
      unfold natToChars
      rw [natToCharsAux_ge n [] h,
        natToCharsAux_append (n / 10) (digitChar (n % 10) :: [])]
      have hthis := ih (n / 10) hdlt hn10
      unfold natToChars at hthis
      rw [heq'] at hthis ⊢
      simpa using hthis

theorem parseExpPart_stop (acc : Chars) (d : Char) (rest : Chars)
    (hee : ¬d = 'e') (hE : ¬d = 'E') :
    storage.parseExpPart acc (d :: rest) = some (acc, d :: rest) := by
  show (if d = 'e' ∨ d = 'E' then storage.parseExpDigits (acc ++ [d]) rest
        else some (acc, d :: rest)) = some (acc, d :: rest)
  rw [if_neg (by rintro (h | h) <;> [exact hee h; exact hE h])]

theorem parseNumberLit_digits (b : Chars) (d : Char) (rest : Chars)
    (hne : b ≠ [])
    (hall : ∀ c ∈ b, isDigitChar c = true)
    (hlz : ¬(1 < b.length ∧ b.head? = some '0'))
    (hd : isDigitChar d = false) (hdot : ¬d = '.') (hee : ¬d = 'e') (hE : ¬d = 'E') :
    storage.parseNumberLit (b ++ d :: rest) = some (b, d :: rest) ∧
    storage.parseNumberLit ('-' :: b ++ d :: rest) = some ('-' :: b, d :: rest) := by
  obtain ⟨htake, hdrop⟩ := takeWhile_append_stop isDigitChar b hall d hd rest
  obtain ⟨c0, btail, rfl⟩ : ∃ c0 btail, b = c0 :: btail := by
    cases b with
    | nil => exact absurd rfl hne
    | cons x xs => exact ⟨x, xs, rfl⟩
  have hc0 : isDigitChar c0 = true := hall c0 (by simp)
  have hc0ne : ¬c0 = '-' := by
    intro hx
    rw [hx] at hc0
    exact absurd hc0 (by decide)
  have htake' : List.takeWhile isDigitChar (c0 :: (btail ++ d :: rest)) = c0 :: btail :=
    htake
  have hdrop' : List.dropWhile isDigitChar (c0 :: (btail ++ d :: rest)) = d :: rest :=
    hdrop
  constructor
  · unfold storage.parseNumberLit
    simp only [List.cons_append, hc0ne, reduceIte, htake', hdrop']
    rw [if_neg (List.cons_ne_nil c0 btail), if_neg hlz]
    simp only [hdot, reduceIte, List.nil_append]
    exact parseExpPart_stop (c0 :: btail) d rest hee hE
  · unfold storage.parseNumberLit
    simp only [List.cons_append, reduceIte, htake', hdrop']
    rw [if_neg (List.cons_ne_nil c0 btail), if_neg hlz]
    simp only [hdot, reduceIte, List.nil_append]
    exact parseExpPart_stop ('-' :: c0 :: btail) d rest hee hE

theorem parseNumberLit_intToChars (i : Int) (d : Char) (rest : Chars)
    (hd : isDigitChar d = false) (hdot : ¬d = '.') (hee : ¬d = 'e') (hE : ¬d = 'E') :
    storage.parseNumberLit (intToChars i ++ d :: rest) =
      some (intToChars i, d :: rest) := by
  obtain ⟨hne, hval, hmem⟩ := natToChars_spec i.natAbs
  have hall : ∀ c ∈ natToChars i.natAbs, isDigitChar c = true := by
    have := natToChars_all_digits i.natAbs
    rw [List.all_eq_true] at this
    exact this
  have hlz : ¬(1 < (natToChars i.natAbs).length ∧
      (natToChars i.natAbs).head? = some '0') := by
    rintro ⟨hlen, hhead⟩
    by_cases hz : i.natAbs = 0
    · have h0 : natToChars 0 = ['0'] := by
        unfold natToChars
        rw [natToCharsAux_lt 0 [] (by omega)]
        rw [show digitChar 0 = '0' from by decide]
      rw [hz, h0] at hlen
      simp at hlen
    · exact natToChars_head_ne_zero i.natAbs (by omega) hhead
  obtain ⟨h1, h2⟩ :=
    parseNumberLit_digits (natToChars i.natAbs) d rest hne hall hlz hd hdot hee hE
  by_cases hneg : i < 0
  · have hform : intToChars i = '-' :: natToChars i.natAbs := by
      unfold intToChars
      rw [if_pos hneg]
    rw [hform]
    exact h2
  · have hform : intToChars i = natToChars i.natAbs := by
      unfold intToChars
      rw [if_neg hneg]
    rw [hform]
    exact h1

theorem skipWS_append_ws (a b : Chars) (h : ∀ c ∈ a, storage.jsonWS c = true) :
    storage.skipWS (a ++ b) = storage.skipWS b := by
  induction a with
  | nil => rfl
  | cons c cs ih =>
    show storage.skipWS (c :: (cs ++ b)) = _
    unfold storage.skipWS
    rw [List.dropWhile_cons, if_pos (by simp [h c (by simp)])]
    exact ih fun x hx => h x (by simp [hx])

theorem skipWS_cons_not_ws (c : Char) (s : Chars) (h : storage.jsonWS c = false) :
    storage.skipWS (c :: s) = c :: s := by
  unfold storage.skipWS
  rw [List.dropWhile_cons, if_neg (by simp [h])]

theorem skipWS_nlIndent (n : Nat) (b : Chars) :
    storage.skipWS (storage.nlIndent n ++ b) = storage.skipWS b := by
  apply skipWS_append_ws
  intro c hc
  unfold storage.nlIndent at hc
  rcases List.mem_cons.1 hc with h1 | h1
  · subst h1; decide
  · rw [List.eq_of_mem_replicate h1]; decide

theorem nlIndent_ws (n : Nat) : ∀ c ∈ storage.nlIndent n, storage.jsonWS c = true := by
  intro c hc
  unfold storage.nlIndent at hc
  rcases List.mem_cons.1 hc with h1 | h1
  · subst h1; decide
  · rw [List.eq_of_mem_replicate h1]; decide

theorem digitChar_json_props (k : Nat) (h : k < 10) :
    storage.jsonWS (digitChar k) = false ∧ ¬digitChar k = 'n' ∧ ¬digitChar k = 't' ∧
    ¬digitChar k = 'f' ∧ ¬digitChar k = '"' ∧ ¬digitChar k = '[' ∧
    ¬digitChar k = storage.lbrace := by
  interval_cases k <;>
    exact ⟨by decide, by decide, by decide, by decide, by decide, by decide, by decide⟩

theorem parseJValue_head_num (F : Nat) (w : Chars) (c : Char) (tl lit r : Chars)
    (hw : ∀ x ∈ w, storage.jsonWS x = true)
    (hws : storage.jsonWS c = false)
    (hn : ¬c = 'n') (ht : ¬c = 't') (hf : ¬c = 'f') (hq : ¬c = '"')
    (hb : ¬c = '[') (hl : ¬c = storage.lbrace)
    (hnum : c = '-' ∨ isDigitChar c = true)
    (hres : storage.parseNumberLit (c :: tl) = some (lit, r)) :
    storage.parseJValue (F + 1) (w ++ c :: tl) =
      some (storage.JVal.jnum lit, r) := by
  rw [storage.parseJValue.eq_def]
  simp only [skipWS_append_ws w (c :: tl) hw, skipWS_cons_not_ws c tl hws,
    hn, ht, hf, hq, hb, hl, reduceIte]
  rw [if_pos hnum, hres]

theorem parseJValue_intToChars (F : Nat) (i : Int) (w : Chars) (d : Char) (rest : Chars)
    (hw : ∀ x ∈ w, storage.jsonWS x = true)
    (hd : isDigitChar d = false) (hdot : ¬d = '.') (hee : ¬d = 'e') (hE : ¬d = 'E') :
    storage.parseJValue (F + 1) (w ++ (intToChars i ++ d :: rest)) =
      some (storage.JVal.jnum (intToChars i), d :: rest) := by
  have hnum := parseNumberLit_intToChars i d rest hd hdot hee hE
  by_cases hneg : i < 0
  · have hform : intToChars i = '-' :: natToChars i.natAbs := by
      unfold intToChars
      rw [if_pos hneg]
    rw [hform] at hnum ⊢
    simp only [List.cons_append] at hnum ⊢
    exact parseJValue_head_num F w '-' _ _ _ hw (by decide) (by decide) (by decide)
      (by decide) (by decide) (by decide) (by decide) (Or.inl rfl) hnum
  · have hform : intToChars i = natToChars i.natAbs := by
      unfold intToChars
      rw [if_neg hneg]
    obtain ⟨k, tail, hket, hklt⟩ := natToChars_head i.natAbs
    rw [hform, hket] at hnum ⊢
    simp only [List.cons_append] at hnum ⊢
    obtain ⟨j1, j2, j3, j4, j5, j6, j7⟩ := digitChar_json_props k hklt
    exact parseJValue_head_num F w (digitChar k) _ _ _ hw j1 j2 j3 j4 j5 j6 j7
      (Or.inr (digitChar_props k hklt).2.1) hnum

theorem parseJValue_str (F : Nat) (w s rest : Chars)
    (hw : ∀ x ∈ w, storage.jsonWS x = true) :
    storage.parseJValue (F + 1) (w ++ storage.encodeJSONString s ++ rest) =
      some (storage.JVal.jstr s, rest) := by
  have henc : storage.encodeJSONString s ++ rest =
      '"' :: ((s.map storage.encodeJSONChar).flatten ++ '"' :: rest) := by
    unfold storage.encodeJSONString
    simp [List.cons_append, List.append_assoc]
  rw [List.append_assoc, henc, storage.parseJValue.eq_def]
  simp +decide only [skipWS_append_ws w _ hw,
    skipWS_cons_not_ws '"' ((s.map storage.encodeJSONChar).flatten ++ '"' :: rest)
      (by decide),
    reduceIte, parseStringBody_encoded]

theorem parseJValue_bool (F : Nat) (w rest : Chars) (b : Bool)
    (hw : ∀ x ∈ w, storage.jsonWS x = true) :
    storage.parseJValue (F + 1) (w ++ (formatBool b ++ rest)) =
      some (storage.JVal.jbool b, rest) := by
  cases b
  · show storage.parseJValue (F + 1)
      (w ++ ('f' :: 'a' :: 'l' :: 's' :: 'e' :: rest)) = _
    rw [storage.parseJValue.eq_def]
    simp +decide only [skipWS_append_ws w _ hw,
      skipWS_cons_not_ws 'f' ('a' :: 'l' :: 's' :: 'e' :: rest) (by decide), reduceIte]
  · show storage.parseJValue (F + 1)
      (w ++ ('t' :: 'r' :: 'u' :: 'e' :: rest)) = _
    rw [storage.parseJValue.eq_def]
    simp +decide only [skipWS_append_ws w _ hw,
      skipWS_cons_not_ws 't' ('r' :: 'u' :: 'e' :: rest) (by decide), reduceIte]

theorem skipWS_ws_cons (w : Chars) (c : Char) (s : Chars)
    (hw : ∀ x ∈ w, storage.jsonWS x = true) (hc : storage.jsonWS c = false) :
    storage.skipWS (w ++ c :: s) = c :: s := by
  rw [skipWS_append_ws w _ hw, skipWS_cons_not_ws c s hc]

theorem parseMembers_done (F : Nat) (b : Bool) (w rest : Chars)
    (hw : ∀ x ∈ w, storage.jsonWS x = true) :
    storage.parseMembers (F + 2)
      (w ++ '"' :: 'd' :: 'o' :: 'n' :: 'e' :: '"' :: ':' :: ' ' ::
        (formatBool b ++ (storage.nlIndent 2 ++ storage.rbrace :: rest))) =
      some ([(['d', 'o', 'n', 'e'], storage.JVal.jbool b)], rest) := by
  have hkey : storage.parseStringBody
      ('d' :: 'o' :: 'n' :: 'e' :: '"' :: ':' :: ' ' ::
        (formatBool b ++ (storage.nlIndent 2 ++ storage.rbrace :: rest))) =
      some ((['d', 'o', 'n', 'e'] : Chars),
        ':' :: ' ' :: (formatBool b ++ (storage.nlIndent 2 ++ storage.rbrace :: rest))) := by
    show storage.parseStringBody
      (((['d', 'o', 'n', 'e'] : Chars).map storage.encodeJSONChar).flatten ++ '"' ::
        (':' :: ' ' :: (formatBool b ++ (storage.nlIndent 2 ++ storage.rbrace :: rest)))) =
      _
    exact parseStringBody_encoded ['d', 'o', 'n', 'e'] _
  have hval := parseJValue_bool F [' ']
    (storage.nlIndent 2 ++ storage.rbrace :: rest) b
    (by intro x hx; rw [List.mem_singleton] at hx; subst hx; decide)
  simp only [List.cons_append, List.nil_append] at hval
  rw [storage.parseMembers.eq_def]
  simp +decide only [skipWS_ws_cons w _ _ hw, reduceIte, hkey,
    skipWS_cons_not_ws, hval, skipWS_nlIndent]

theorem parseMembers_desc (F : Nat) (s : Chars) (b : Bool) (w rest : Chars)
    (hw : ∀ x ∈ w, storage.jsonWS x = true) :
    storage.parseMembers (F + 3)
      (w ++ '"' :: 'd' :: 'e' :: 's' :: 'c' :: 'r' :: 'i' :: 'p' :: 't' :: 'i' ::
        'o' :: 'n' :: '"' :: ':' :: ' ' ::
        (storage.encodeJSONString s ++ (',' ::
          (storage.nlIndent 4 ++ '"' :: 'd' :: 'o' :: 'n' :: 'e' :: '"' :: ':' :: ' ' ::
            (formatBool b ++ (storage.nlIndent 2 ++ storage.rbrace :: rest)))))) =
      some ([(['d', 'e', 's', 'c', 'r', 'i', 'p', 't', 'i', 'o', 'n'],
              storage.JVal.jstr s),
             (['d', 'o', 'n', 'e'], storage.JVal.jbool b)], rest) := by
  have hkey : storage.parseStringBody
      ('d' :: 'e' :: 's' :: 'c' :: 'r' :: 'i' :: 'p' :: 't' :: 'i' :: 'o' :: 'n' ::
        '"' :: ':' :: ' ' ::
        (storage.encodeJSONString s ++ (',' ::
          (storage.nlIndent 4 ++ '"' :: 'd' :: 'o' :: 'n' :: 'e' :: '"' :: ':' :: ' ' ::
            (formatBool b ++ (storage.nlIndent 2 ++ storage.rbrace :: rest)))))) =
      some ((['d', 'e', 's', 'c', 'r', 'i', 'p', 't', 'i', 'o', 'n'] : Chars),
        ':' :: ' ' ::
        (storage.encodeJSONString s ++ (',' ::
          (storage.nlIndent 4 ++ '"' :: 'd' :: 'o' :: 'n' :: 'e' :: '"' :: ':' :: ' ' ::
            (formatBool b ++ (storage.nlIndent 2 ++ storage.rbrace :: rest)))))) := by
    show storage.parseStringBody
      ((((['d', 'e', 's', 'c', 'r', 'i', 'p', 't', 'i', 'o', 'n']) : Chars).map
          storage.encodeJSONChar).flatten ++ '"' ::
        (':' :: ' ' ::
          (storage.encodeJSONString s ++ (',' ::
            (storage.nlIndent 4 ++ '"' :: 'd' :: 'o' :: 'n' :: 'e' :: '"' :: ':' :: ' ' ::
              (formatBool b ++ (storage.nlIndent 2 ++ storage.rbrace :: rest))))))) = _
    exact parseStringBody_encoded ['d', 'e', 's', 'c', 'r', 'i', 'p', 't', 'i', 'o', 'n'] _
  have hval := parseJValue_str (F + 1) [' '] s
    (',' :: (storage.nlIndent 4 ++ '"' :: 'd' :: 'o' :: 'n' :: 'e' :: '"' :: ':' :: ' ' ::
      (formatBool b ++ (storage.nlIndent 2 ++ storage.rbrace :: rest))))
    (by intro x hx; rw [List.mem_singleton] at hx; subst hx; decide)
  rw [show F + 1 + 1 = F + 2 from rfl] at hval
  simp only [List.cons_append, List.nil_append, List.append_assoc] at hval
  have hrec := parseMembers_done F b (storage.nlIndent 4) rest (nlIndent_ws 4)
  rw [storage.parseMembers.eq_def]
  simp +decide only [skipWS_ws_cons w _ _ hw, reduceIte, hkey,
    skipWS_cons_not_ws, hval, hrec, skipWS_nlIndent]

theorem parseMembers_task (F : Nat) (i : Int) (s : Chars) (b : Bool) (w rest : Chars)
    (hw : ∀ x ∈ w, storage.jsonWS x = true) :
    storage.parseMembers (F + 4)
      (w ++ '"' :: 'i' :: 'd' :: '"' :: ':' :: ' ' ::
        (intToChars i ++ ',' ::
          (storage.nlIndent 4 ++ '"' :: 'd' :: 'e' :: 's' :: 'c' :: 'r' :: 'i' :: 'p' ::
            't' :: 'i' :: 'o' :: 'n' :: '"' :: ':' :: ' ' ::
            (storage.encodeJSONString s ++ (',' ::
              (storage.nlIndent 4 ++ '"' :: 'd' :: 'o' :: 'n' :: 'e' :: '"' :: ':' :: ' ' ::
                (formatBool b ++ (storage.nlIndent 2 ++ storage.rbrace :: rest)))))))) =
      some ([(['i', 'd'], storage.JVal.jnum (intToChars i)),
             (['d', 'e', 's', 'c', 'r', 'i', 'p', 't', 'i', 'o', 'n'],
              storage.JVal.jstr s),
             (['d', 'o', 'n', 'e'], storage.JVal.jbool b)], rest) := by
  have hkey : storage.parseStringBody
      ('i' :: 'd' :: '"' :: ':' :: ' ' ::
        (intToChars i ++ ',' ::
          (storage.nlIndent 4 ++ '"' :: 'd' :: 'e' :: 's' :: 'c' :: 'r' :: 'i' :: 'p' ::
            't' :: 'i' :: 'o' :: 'n' :: '"' :: ':' :: ' ' ::
            (storage.encodeJSONString s ++ (',' ::
              (storage.nlIndent 4 ++ '"' :: 'd' :: 'o' :: 'n' :: 'e' :: '"' :: ':' :: ' ' ::
                (formatBool b ++ (storage.nlIndent 2 ++ storage.rbrace :: rest)))))))) =
      some ((['i', 'd'] : Chars),
        ':' :: ' ' ::
        (intToChars i ++ ',' ::
          (storage.nlIndent 4 ++ '"' :: 'd' :: 'e' :: 's' :: 'c' :: 'r' :: 'i' :: 'p' ::
            't' :: 'i' :: 'o' :: 'n' :: '"' :: ':' :: ' ' ::
            (storage.encodeJSONString s ++ (',' ::
              (storage.nlIndent 4 ++ '"' :: 'd' :: 'o' :: 'n' :: 'e' :: '"' :: ':' :: ' ' ::
                (formatBool b ++ (storage.nlIndent 2 ++ storage.rbrace :: rest)))))))) := by
    show storage.parseStringBody
      (((['i', 'd'] : Chars).map storage.encodeJSONChar).flatten ++ '"' ::
        (':' :: ' ' ::
          (intToChars i ++ ',' ::
            (storage.nlIndent 4 ++ '"' :: 'd' :: 'e' :: 's' :: 'c' :: 'r' :: 'i' :: 'p' ::
              't' :: 'i' :: 'o' :: 'n' :: '"' :: ':' :: ' ' ::
              (storage.encodeJSONString s ++ (',' ::
                (storage.nlIndent 4 ++ '"' :: 'd' :: 'o' :: 'n' :: 'e' :: '"' :: ':' ::
                  ' ' ::
                  (formatBool b ++ (storage.nlIndent 2 ++ storage.rbrace :: rest))))))))) =
      _
    exact parseStringBody_encoded ['i', 'd'] _
  have hval := parseJValue_intToChars (F + 2) i [' '] ','
    (storage.nlIndent 4 ++ '"' :: 'd' :: 'e' :: 's' :: 'c' :: 'r' :: 'i' :: 'p' ::
      't' :: 'i' :: 'o' :: 'n' :: '"' :: ':' :: ' ' ::
      (storage.encodeJSONString s ++ (',' ::
        (storage.nlIndent 4 ++ '"' :: 'd' :: 'o' :: 'n' :: 'e' :: '"' :: ':' :: ' ' ::
          (formatBool b ++ (storage.nlIndent 2 ++ storage.rbrace :: rest))))))
    (by intro x hx; rw [List.mem_singleton] at hx; subst hx; decide)
    (by decide) (by decide) (by decide) (by decide)
  rw [show F + 2 + 1 = F + 3 from rfl] at hval
  simp only [List.cons_append, List.nil_append, List.append_assoc] at hval
  have hrec := parseMembers_desc F s b (storage.nlIndent 4) rest (nlIndent_ws 4)
  rw [storage.parseMembers.eq_def]
  simp +decide only [skipWS_ws_cons w _ _ hw, reduceIte, hkey,
    skipWS_cons_not_ws, hval, hrec, skipWS_nlIndent]

theorem parseJValue_encodedTask (F : Nat) (t : todo.Task) (w rest : Chars)
    (hw : ∀ x ∈ w, storage.jsonWS x = true) :
    storage.parseJValue (F + 5) (w ++ (storage.encodeJSONTask t ++ rest)) =
      some (storage.taskJVal t, rest) := by
  have h1 : ("\"id\": ".data : Chars) = ['"', 'i', 'd', '"', ':', ' '] := rfl
  have h2 : ("\"description\": ".data : Chars) =
      ['"', 'd', 'e', 's', 'c', 'r', 'i', 'p', 't', 'i', 'o', 'n', '"', ':', ' '] := rfl
  have h3 : ("\"done\": ".data : Chars) = ['"', 'd', 'o', 'n', 'e', '"', ':', ' '] := rfl
  have hof : storage.encodeJSONTask t ++ rest =
      storage.lbrace ::
        (storage.nlIndent 4 ++ '"' :: 'i' :: 'd' :: '"' :: ':' :: ' ' ::
          (intToChars t.id ++ ',' ::
            (storage.nlIndent 4 ++ '"' :: 'd' :: 'e' :: 's' :: 'c' :: 'r' :: 'i' :: 'p' ::
              't' :: 'i' :: 'o' :: 'n' :: '"' :: ':' :: ' ' ::
              (storage.encodeJSONString t.description ++ (',' ::
                (storage.nlIndent 4 ++ '"' :: 'd' :: 'o' :: 'n' :: 'e' :: '"' :: ':' ::
                  ' ' ::
                  (formatBool t.done ++
                    (storage.nlIndent 2 ++ storage.rbrace :: rest)))))))) := by
    unfold storage.encodeJSONTask
    rw [h1, h2, h3]
    simp [List.cons_append, List.append_assoc]
  have hmem := parseMembers_task F t.id t.description t.done [] rest
    (by intro x hx; cases hx)
  simp only [List.nil_append] at hmem
  have htv : storage.taskJVal t = storage.JVal.jobj
      [(['i', 'd'], storage.JVal.jnum (intToChars t.id)),
       (['d', 'e', 's', 'c', 'r', 'i', 'p', 't', 'i', 'o', 'n'],
        storage.JVal.jstr t.description),
       (['d', 'o', 'n', 'e'], storage.JVal.jbool t.done)] := rfl
  rw [hof, htv, storage.parseJValue.eq_def]
  simp +decide only [skipWS_ws_cons w _ _ hw, reduceIte, skipWS_cons_not_ws,
    skipWS_nlIndent, hmem]

theorem skipWS_cons_ws (c : Char) (s : Chars) (h : storage.jsonWS c = true) :
    storage.skipWS (c :: s) = storage.skipWS s := by
  unfold storage.skipWS
  rw [List.dropWhile_cons, if_pos (by simp [h])]

theorem parseElems_tasks (ts : Tasks) :
    ∀ (t : todo.Task) (F : Nat) (w rest : Chars), (∀ x ∈ w, storage.jsonWS x = true) →
    storage.parseElems (ts.length + F + 6)
      (w ++ (storage.encodeJSONTask t ++
        (((ts.map fun u => ',' :: storage.nlIndent 2 ++ storage.encodeJSONTask u).flatten)
          ++ '\n' :: ']' :: rest))) =
      some ((t :: ts).map storage.taskJVal, rest) := by
  induction ts with
  | nil =>
    intro t F w rest hw
    simp only [List.map_nil, List.flatten_nil, List.nil_append, List.length_nil,
      Nat.zero_add]
    have hval := parseJValue_encodedTask F t w ('\n' :: ']' :: rest) hw
    rw [storage.parseElems.eq_def]
    simp +decide only [hval, skipWS_cons_ws, skipWS_cons_not_ws, reduceIte,
      List.map_cons, List.map_nil]
  | cons u us ih =>
    intro t F w rest hw
    simp only [List.map_cons, List.flatten_cons, List.cons_append, List.append_assoc,
      List.length_cons]
    have hval := parseJValue_encodedTask (us.length + (F + 1)) t w
      (',' :: (storage.nlIndent 2 ++ (storage.encodeJSONTask u ++
        (((us.map fun v => ',' :: storage.nlIndent 2 ++ storage.encodeJSONTask v).flatten)
          ++ '\n' :: ']' :: rest)))) hw
    have hrec := ih u F (storage.nlIndent 2) rest (nlIndent_ws 2)
    rw [show us.length + F + 6 = us.length + (F + 1) + 5 from by omega] at hrec
    simp only [List.cons_append] at hval hrec
    rw [show us.length + 1 + F + 6 = (us.length + (F + 1) + 5) + 1 from by omega]
    rw [storage.parseElems.eq_def]
    simp +decide only [hval, hrec, skipWS_cons_ws, skipWS_cons_not_ws, reduceIte,
      List.map_cons]

theorem parseJValue_arr_step (fuel : Nat) (w : Chars) (t0 : todo.Task) (Y : Chars)
    (vs : List storage.JVal) (r : Chars)
    (hw : ∀ x ∈ w, storage.jsonWS x = true)
    (h : storage.parseElems fuel (storage.encodeJSONTask t0 ++ Y) = some (vs, r)) :
    storage.parseJValue (fuel + 1)
      (w ++ '[' :: (storage.nlIndent 2 ++ (storage.encodeJSONTask t0 ++ Y))) =
      some (storage.JVal.jarr vs, r) := by
  have hsk : storage.skipWS (storage.encodeJSONTask t0 ++ Y) =
      storage.encodeJSONTask t0 ++ Y := by
    unfold storage.encodeJSONTask
    simp only [List.cons_append]
    exact skipWS_cons_not_ws _ _ (by decide)
  rw [storage.parseJValue.eq_def]
  simp +decide only [skipWS_ws_cons w _ _ hw, skipWS_nlIndent, hsk, reduceIte]
  show (match storage.parseElems fuel (storage.encodeJSONTask t0 ++ Y) with
        | some (vs2, r2) => some (storage.JVal.jarr vs2, r2)
        | none => none) = some (storage.JVal.jarr vs, r)
  rw [h]

theorem parseJValue_encodedTasks (t : todo.Task) (ts : Tasks) (F : Nat) :
    storage.parseJValue (ts.length + F + 7)
      (storage.encodeJSONTasks (t :: ts)) =
      some (storage.JVal.jarr ((t :: ts).map storage.taskJVal), []) := by
  have helems := parseElems_tasks ts t F [] [] (by intro x hx; cases hx)
  simp only [List.nil_append] at helems
  have hstep := parseJValue_arr_step (ts.length + F + 6) [] t
    (((ts.map fun u => ',' :: storage.nlIndent 2 ++ storage.encodeJSONTask u).flatten)
      ++ '\n' :: ']' :: []) _ _ (by intro x hx; cases hx) helems
  simp only [List.nil_append] at hstep
  have henc : storage.encodeJSONTasks (t :: ts) =
      '[' :: (storage.nlIndent 2 ++ (storage.encodeJSONTask t ++
        (((ts.map fun u => ',' :: storage.nlIndent 2 ++ storage.encodeJSONTask u).flatten)
          ++ '\n' :: ']' :: []))) := by
    show ('[' :: storage.nlIndent 2) ++ storage.encodeJSONTask t ++
        ((ts.map fun u => ',' :: storage.nlIndent 2 ++ storage.encodeJSONTask u).flatten)
        ++ '\n' :: [']'] = _
    simp [List.cons_append, List.append_assoc]
  rw [show ts.length + F + 7 = (ts.length + F + 6) + 1 from by omega, henc]
  exact hstep

theorem setTaskField_id (t0 : todo.Task) (i : Int) :
    storage.setTaskField (some t0) ['i', 'd'] (storage.JVal.jnum (intToChars i)) =
      some { t0 with id := i } := by
  unfold storage.setTaskField
  simp +decide only [atoi_intToChars, reduceIte]

theorem setTaskField_desc (t0 : todo.Task) (s : Chars) :
    storage.setTaskField (some t0) ['d', 'e', 's', 'c', 'r', 'i', 'p', 't', 'i', 'o', 'n']
      (storage.JVal.jstr s) = some { t0 with description := s } := by
  unfold storage.setTaskField
  simp +decide only [reduceIte]

theorem setTaskField_done (t0 : todo.Task) (b : Bool) :
    storage.setTaskField (some t0) ['d', 'o', 'n', 'e'] (storage.JVal.jbool b) =
      some { t0 with done := b } := by
  unfold storage.setTaskField
  simp +decide only [reduceIte]

theorem taskOfJVal_taskJVal (t : todo.Task) :
    storage.taskOfJVal (storage.taskJVal t) = some t := by
  show List.foldl (fun acc kv => storage.setTaskField acc kv.1 kv.2)
    (some { id := 0, description := [], done := false })
    [((['i', 'd'] : Chars), storage.JVal.jnum (intToChars t.id)),
     ((['d', 'e', 's', 'c', 'r', 'i', 'p', 't', 'i', 'o', 'n'] : Chars),
      storage.JVal.jstr t.description),
     ((['d', 'o', 'n', 'e'] : Chars), storage.JVal.jbool t.done)] = some t
  simp only [List.foldl_cons, List.foldl_nil, setTaskField_id, setTaskField_desc,
    setTaskField_done]

theorem mapM_loop_taskOfJVal (tasks : Tasks) : ∀ acc : Tasks,
    List.mapM.loop storage.taskOfJVal (tasks.map storage.taskJVal) acc =
      some (acc.reverse ++ tasks) := by
  induction tasks with
  | nil =>
    intro acc
    show some acc.reverse = some (acc.reverse ++ [])
    simp
  | cons t ts ih =>
    intro acc
    show (storage.taskOfJVal (storage.taskJVal t) >>= fun b =>
        List.mapM.loop storage.taskOfJVal (ts.map storage.taskJVal) (b :: acc)) =
      some (acc.reverse ++ t :: ts)
    rw [taskOfJVal_taskJVal t]
    show List.mapM.loop storage.taskOfJVal (ts.map storage.taskJVal) (t :: acc) =
      some (acc.reverse ++ t :: ts)
    rw [ih (t :: acc)]
    simp

theorem mapM_taskOfJVal (tasks : Tasks) :
    (tasks.map storage.taskJVal).mapM storage.taskOfJVal = some tasks := by
  show List.mapM.loop storage.taskOfJVal (tasks.map storage.taskJVal) [] = some tasks
  rw [mapM_loop_taskOfJVal tasks []]
  simp

theorem tasksOfJVal_map (tasks : Tasks) :
    storage.tasksOfJVal (storage.JVal.jarr (tasks.map storage.taskJVal)) =
      some tasks := by
  show (tasks.map storage.taskJVal).mapM storage.taskOfJVal = some tasks
  exact mapM_taskOfJVal tasks

theorem encodeJSONTask_len_pos (t : todo.Task) :
    1 ≤ (storage.encodeJSONTask t).length := by
  unfold storage.encodeJSONTask
  simp

theorem flatten_elems_len (ts : Tasks) :
    ts.length ≤
      ((ts.map fun u => ',' :: storage.nlIndent 2 ++ storage.encodeJSONTask u).flatten).length := by
  induction ts with
  | nil => simp
  | cons u us ih =>
    simp only [List.map_cons, List.flatten_cons, List.length_append, List.length_cons]
    have h1 : 1 ≤ (',' :: storage.nlIndent 2 ++ storage.encodeJSONTask u).length := by
      simp [List.cons_append]
    omega

theorem encodeJSONTasks_len (t : todo.Task) (ts : Tasks) :
    ts.length + 7 ≤ (storage.encodeJSONTasks (t :: ts)).length := by
  have h1 := encodeJSONTask_len_pos t
  have h2 := flatten_elems_len ts
  have h3 : (storage.nlIndent 2).length = 3 := rfl
  simp only [List.cons_append] at h2
  simp only [storage.encodeJSONTasks, List.cons_append, List.length_cons,
    List.length_append, List.length_nil]
  omega

theorem decodeJSON_encodeJSON (tasks : Tasks) :
    storage.decodeJSONTasks (storage.encodeJSONTasks tasks) = some tasks := by
  cases tasks with
  | nil => rfl
  | cons t ts =>
    have hlen := encodeJSONTasks_len t ts
    obtain ⟨F, hF⟩ : ∃ F, (storage.encodeJSONTasks (t :: ts)).length + 1 =
        ts.length + F + 7 :=
      ⟨(storage.encodeJSONTasks (t :: ts)).length + 1 - (ts.length + 7), by omega⟩
    unfold storage.decodeJSONTasks
    rw [hF, parseJValue_encodedTasks t ts F]
    simp +decide only [storage.skipWS, List.dropWhile_nil, reduceIte, tasksOfJVal_map]

/-- C3: codec round trip. The JSON codec (`SaveJSON`'s `MarshalIndent` output
fed back through `LoadJSON`'s `Unmarshal`) reproduces every collection exactly,
including descriptions with embedded commas, quotes, newlines and non-ASCII
text. The CSV codec round-trips exactly those collections whose descriptions
are unchanged by whitespace trimming and contain no carriage return: `LoadCSV`
applies `strings.TrimSpace` to every field and `encoding/csv`'s reader folds
`\r\n` to `\n`, so other valid descriptions come back altered (see the
counterexample). -/
theorem c3_codec_round_trip (tasks : Tasks)
    (h : ∀ t ∈ tasks, trimSpace t.description = t.description ∧ '\r' ∉ t.description) :
    storage.decodeJSONTasks (storage.encodeJSONTasks tasks) = some tasks ∧
    storage.LoadCSV (storage.SaveCSV tasks) = tasks :=
  ⟨decodeJSON_encodeJSON tasks, LoadCSV_SaveCSV tasks h⟩

theorem c3_codec_round_trip_witness :
    (∀ t ∈ ([⟨1, ['a', ',', '"', '\n', 'é'], false⟩, ⟨2, ['b'], true⟩] : Tasks),
        trimSpace t.description = t.description ∧ '\r' ∉ t.description) ∧
    (storage.decodeJSONTasks (storage.encodeJSONTasks
        [⟨1, ['a', ',', '"', '\n', 'é'], false⟩, ⟨2, ['b'], true⟩]) =
      some [⟨1, ['a', ',', '"', '\n', 'é'], false⟩, ⟨2, ['b'], true⟩] ∧
     storage.LoadCSV (storage.SaveCSV
        [⟨1, ['a', ',', '"', '\n', 'é'], false⟩, ⟨2, ['b'], true⟩]) =
      [⟨1, ['a', ',', '"', '\n', 'é'], false⟩, ⟨2, ['b'], true⟩]) :=
  ⟨by decide, c3_codec_round_trip _ (by decide)⟩

/-- C3 counterexample: the description consisting of the letter a followed by
a space is admitted by the Task Operations layer, yet the CSV codec does not
round-trip it: `LoadCSV` trims the stored field back to just the letter. -/
theorem c3_codec_round_trip_counterexample :
    todo.ValidateDescription ['a', ' '] = none ∧
    storage.LoadCSV (storage.SaveCSV [⟨1, ['a', ' '], false⟩]) =
      [⟨1, ['a'], false⟩] ∧
    storage.LoadCSV (storage.SaveCSV [⟨1, ['a', ' '], false⟩]) ≠
      [⟨1, ['a', ' '], false⟩] := by
  have h1 : intToChars 1 = ['1'] := by
    unfold intToChars
    rw [if_neg (by omega), show (1 : Int).natAbs = 1 from rfl]
    unfold natToChars
    rw [natToCharsAux_lt 1 [] (by omega), show digitChar 1 = '1' from by decide]
  have hs : storage.SaveCSV [⟨1, ['a', ' '], false⟩] =
      "ID,Description,Done\n1,a ,false\n".data := by
    simp only [storage.SaveCSV, storage.taskRecord, List.map_cons, List.map_nil, h1]
    decide
  refine ⟨by decide, ?_, ?_⟩
  · rw [hs]
    decide
  · rw [hs]
    decide
